import Mathlib

set_option maxHeartbeats 1000000

namespace LibGHT

/-!
Shallow embedding of the libght core (a geohash-indexed radix tree for point
clouds).  The repository sources contain only the internal header
`ght_internal.h`, i.e. declarations and documentation; every function body is
therefore modelled from the specification, as noted on each definition.
Hashes are lists of characters, quantized attribute payloads are integers,
scales and offsets are rationals, and serialized bytes are natural numbers.
-/

/-- Modelled from the spec: the count of leading characters two hashes share,
the character-by-character scan underlying `ght_hash_common_length` (whose C
body is not under src). -/
def commonLen : List Char → List Char → Nat
  | x :: xs, y :: ys => if x = y then commonLen xs ys + 1 else 0
  | _, _ => 0

/-- Modelled from the spec: `ght_hash_common_length` (body not under src).
Length of the longest shared prefix clamped to the bound; `0` when either hash
is the empty master hash; `-1` when both are non-empty and share no prefix. -/
def ght_hash_common_length (a b : List Char) (maxLen : Nat) : Int :=
  if a = [] ∨ b = [] then 0
  else if commonLen a b = 0 then -1
  else Int.ofNat (min (commonLen a b) maxLen)

inductive GhtHashMatch where
  | GHT_NONE
  | GHT_GLOBAL
  | GHT_SAME
  | GHT_CHILD
  | GHT_SPLIT
deriving DecidableEq

/-- Modelled from the spec: `ght_hash_leaf_parts` (body not under src), the
leaf-parts table of section 4.1 applied top to bottom.  The header's `maxlen`
argument bounds the scan; the spec's table works with the full shared prefix
length, which is what is modelled here.  Returns the match kind together with
the fresh `a_leaf` and `b_leaf` strings. -/
def ght_hash_leaf_parts (a b : List Char) : GhtHashMatch × List Char × List Char :=
  if a = [] then (.GHT_GLOBAL, [], b)
  else if a = b then (.GHT_SAME, [], [])
  else
    let n := commonLen a b
    if n = a.length then (.GHT_CHILD, [], b.drop n)
    else if n = b.length then (.GHT_SPLIT, a.drop n, [])
    else if 0 < n then (.GHT_SPLIT, a.drop n, b.drop n)
    else (.GHT_NONE, a, b)

/-! ## Data model: dimensions, schemas, attributes, nodes, trees.
Modelled from the structs of ght_internal.h.  A `GhtAttribute` stores its
dimension as the index into the schema (the C struct stores a pointer into
the shared schema) and its packed payload as the quantized integer (the C
struct stores the same number as up to eight raw bytes). -/

structure GhtDimension where
  ghtype : Nat
  scale : ℚ
  offset : ℚ
deriving DecidableEq

abbrev GhtSchema := List GhtDimension

structure GhtAttribute where
  dim : Nat
  val : Int
deriving DecidableEq

/-- Modelled from ght_internal.h: a node carries a hash fragment, a reserved
flag byte, an attribute list and a children list (the unserialized derived
field `z_avg` is omitted). -/
inductive GhtNode where
  | mk : List Char → Nat → List GhtAttribute → List GhtNode → GhtNode

def GhtNode.hash : GhtNode → List Char
  | .mk h _ _ _ => h

def GhtNode.ghtFlag : GhtNode → Nat
  | .mk _ f _ _ => f

def GhtNode.attributes : GhtNode → List GhtAttribute
  | .mk _ _ a _ => a

def GhtNode.children : GhtNode → List GhtNode
  | .mk _ _ _ c => c

def sizeOf_lt_of_mem (c : GhtNode) :
    ∀ l : List GhtNode, c ∈ l → sizeOf c < sizeOf l
  | [], h => absurd h (List.not_mem_nil c)
  | x :: xs, h => by
    have hs : sizeOf (x :: xs) = 1 + sizeOf x + sizeOf xs := by
      simp only [List.cons.sizeOf_spec]
    rcases List.mem_cons.mp h with h | h
    · subst h
      omega
    · have := sizeOf_lt_of_mem c xs h
      omega

def sizeOf_children_lt (n : GhtNode) : sizeOf n.children < sizeOf n := by
  cases n with
  | mk h f a c =>
    simp only [GhtNode.children, GhtNode.mk.sizeOf_spec]
    omega

structure GhtConfig where
  maxResolution : Nat
  allowDuplicates : Bool
deriving DecidableEq

/-- Modelled from the spec: `ght_config_init` defaults. -/
def defaultConfig : GhtConfig := { maxResolution := 16, allowDuplicates := false }

structure GhtTree where
  schema : GhtSchema
  root : GhtNode
  num_nodes : Nat
  config : GhtConfig

/-! ## Filters (section 4.5 of the spec). -/

inductive GhtFilterMode where
  | GHT_GREATER_THAN
  | GHT_LESS_THAN
  | GHT_BETWEEN
  | GHT_EQUAL
deriving DecidableEq

structure GhtRange where
  min : ℚ
  max : ℚ
deriving DecidableEq

structure GhtFilter where
  range : GhtRange
  mode : GhtFilterMode
  dim : Nat
deriving DecidableEq

/-- The GHT_EPSILON constant of ght_internal.h, whose literal is `10e-8`. -/
def GHT_EPSILON : ℚ := 10 / 10 ^ 8

/-- Modelled from the spec: the default dimension used when an index lookup
misses (cannot happen for attributes built against the schema). -/
def defaultDim : GhtDimension := { ghtype := 0, scale := 1, offset := 0 }

def dimOf (schema : GhtSchema) (i : Nat) : GhtDimension :=
  schema.getD i defaultDim

/-- Modelled from the spec: `ght_attribute_get_value`, the affine
dequantization `packed * scale + offset` of section 4.4. -/
def ght_attribute_get_value (schema : GhtSchema) (a : GhtAttribute) : ℚ :=
  (a.val : ℚ) * (dimOf schema a.dim).scale + (dimOf schema a.dim).offset

/-- Modelled from the spec: the filter predicate of section 4.5 on a
dequantized value. -/
def ght_filter_passes (f : GhtFilter) (v : ℚ) : Bool :=
  match f.mode with
  | .GHT_GREATER_THAN => decide (f.range.min < v)
  | .GHT_LESS_THAN => decide (v < f.range.max)
  | .GHT_BETWEEN => decide (f.range.min ≤ v ∧ v ≤ f.range.max)
  | .GHT_EQUAL => decide (|v - f.range.min| ≤ GHT_EPSILON)

/-! ## Hash codec (section 4.1 of the spec): classical geohash encoding.
Coordinates are rationals; each base-32 character carries five bisection
bits, alternating longitude/latitude starting with longitude. -/

structure GhtCoordinate where
  x : ℚ
  y : ℚ

structure GhtArea where
  x : GhtRange
  y : GhtRange
deriving DecidableEq

/-- The geohash alphabet `0123456789bcdefghjkmnpqrstuvwxyz`. -/
def geoAlphabet : List Char :=
  ['0', '1', '2', '3', '4', '5', '6', '7', '8', '9', 'b', 'c', 'd', 'e', 'f',
   'g', 'h', 'j', 'k', 'm', 'n', 'p', 'q', 'r', 's', 't', 'u', 'v', 'w', 'x',
   'y', 'z']

/-- Modelled from the spec: the bisection bit stream of the classical geohash
algorithm, alternating longitude and latitude, one bit per halving. -/
def encodeBits (x y : ℚ) : Nat → ℚ → ℚ → ℚ → ℚ → Bool → List Bool
  | 0, _, _, _, _, _ => []
  | k + 1, x0, x1, y0, y1, lon =>
    if lon then
      if (x0 + x1) / 2 ≤ x then
        true :: encodeBits x y k ((x0 + x1) / 2) x1 y0 y1 false
      else
        false :: encodeBits x y k x0 ((x0 + x1) / 2) y0 y1 false
    else
      if (y0 + y1) / 2 ≤ y then
        true :: encodeBits x y k x0 x1 ((y0 + y1) / 2) y1 true
      else
        false :: encodeBits x y k x0 x1 y0 ((y0 + y1) / 2) true

/-- Modelled from the spec: reverse bisection decoding a bit stream to the
bounding cell. -/
def decodeBits : List Bool → ℚ → ℚ → ℚ → ℚ → Bool → GhtArea
  | [], x0, x1, y0, y1, _ => { x := ⟨x0, x1⟩, y := ⟨y0, y1⟩ }
  | b :: bs, x0, x1, y0, y1, lon =>
    if lon then
      if b then decodeBits bs ((x0 + x1) / 2) x1 y0 y1 false
      else decodeBits bs x0 ((x0 + x1) / 2) y0 y1 false
    else
      if b then decodeBits bs x0 x1 ((y0 + y1) / 2) y1 true
      else decodeBits bs x0 x1 y0 ((y0 + y1) / 2) true

/-- Value of a big-endian bit list. -/
def bitsVal : List Bool → Nat
  | [] => 0
  | b :: bs => (if b then 1 else 0) * 2 ^ bs.length + bitsVal bs

/-- The five bits of a base-32 digit, most significant first. -/
def char5 (v : Nat) : List Bool :=
  [decide (v / 16 % 2 = 1), decide (v / 8 % 2 = 1), decide (v / 4 % 2 = 1),
   decide (v / 2 % 2 = 1), decide (v % 2 = 1)]

def chunk5 : List Bool → List (List Bool)
  | a :: b :: c :: d :: e :: rest => [a, b, c, d, e] :: chunk5 rest
  | [] => []
  | l => [l]

/-- Group the bit stream into base-32 characters, five bits per character. -/
def toChars (bits : List Bool) : List Char :=
  (chunk5 bits).map (fun c => geoAlphabet.getD (bitsVal c) '0')

/-- Base-32 digit value of a character, `none` when outside the alphabet. -/
def charVal (c : Char) : Option Nat :=
  if geoAlphabet.indexOf c < 32 then some (geoAlphabet.indexOf c) else none

/-- Modelled from the spec: `ght_hash_from_coordinate` (body not under src):
classical geohash of `(x, y)` with `r` characters, `none` when the coordinate
is out of range or the resolution exceeds the compile-time maximum of 16. -/
def ght_hash_from_coordinate (coord : GhtCoordinate) (r : Nat) :
    Option (List Char) :=
  if -180 ≤ coord.x ∧ coord.x ≤ 180 ∧ -90 ≤ coord.y ∧ coord.y ≤ 90 ∧ r ≤ 16 then
    some (toChars (encodeBits coord.x coord.y (5 * r) (-180) 180 (-90) 90 true))
  else none

/-- Modelled from the spec: `ght_area_from_hash` (body not under src):
reverse bisection of the hash characters; the empty hash decodes to the full
world. -/
def ght_area_from_hash (h : List Char) : Option GhtArea :=
  (h.mapM charVal).map
    (fun vs => decodeBits ((vs.map char5).flatten) (-180) 180 (-90) 90 true)

/-- Encode then decode, composed, for stating round-trip facts. -/
def ghtCellOf (coord : GhtCoordinate) (r : Nat) : Option GhtArea :=
  (ght_hash_from_coordinate coord r).bind ght_area_from_hash

/-- Number of longitude bits among `k` alternating bits starting with `lon`. -/
def lonCount : Nat → Bool → Nat
  | 0, _ => 0
  | k + 1, true => lonCount k false + 1
  | k + 1, false => lonCount k true

/-! ## Node insertion (section 4.2 of the spec) and leaf counting. -/

inductive GhtDuplicates where
  | GHT_DUPES_NO
  | GHT_DUPES_YES
deriving DecidableEq

/-- Modelled from the spec: first attribute of the chain for a dimension
(`ght_attribute_get_by_dimension` as a pure lookup). -/
def getByDim (attrs : List GhtAttribute) (d : Nat) : Option GhtAttribute :=
  attrs.find? (fun a => a.dim == d)

def attrHasDim (attrs : List GhtAttribute) (d : Nat) : Bool :=
  attrs.any (fun a => a.dim == d)

/-- Modelled from the spec: `ght_attribute_union` keeps every attribute of the
first list and appends those of the second whose dimension is not already
present in the first, preserving order. -/
def ght_attribute_union (a1 a2 : List GhtAttribute) : List GhtAttribute :=
  a1 ++ a2.filter (fun a => !(attrHasDim a1 a.dim))

def withHash (n : GhtNode) (h : List Char) : GhtNode :=
  .mk h n.ghtFlag n.attributes n.children

def withChildren (n : GhtNode) (cs : List GhtNode) : GhtNode :=
  .mk n.hash n.ghtFlag n.attributes cs

def withAttrs (n : GhtNode) (as : List GhtAttribute) : GhtNode :=
  .mk n.hash n.ghtFlag as n.children

/-- Modelled from the spec: the insertion state machine of section 4.2,
acting on the children list of a node.  Each existing child is classified by
`ght_hash_leaf_parts` against the incoming node: SAME merges (or appends a
duplicate sibling at the end under DUPES_YES), CHILD descends with the
trimmed fragment, SPLIT splices a fresh internal node carrying the shared
prefix, NONE moves on to the next child; when no child matches the incoming
node is appended.  GHT_GLOBAL can only arise for an empty child fragment,
which insertion never creates; it falls through like NONE. -/
def ght_node_insert_children (dup : GhtDuplicates) (inc : GhtNode) :
    List GhtNode → List GhtNode
  | [] => [inc]
  | c :: rest =>
    match ght_hash_leaf_parts c.hash inc.hash with
    | (.GHT_SAME, _, _) =>
      if dup = GhtDuplicates.GHT_DUPES_NO then
        withAttrs c (ght_attribute_union c.attributes inc.attributes) :: rest
      else c :: (rest ++ [inc])
    | (.GHT_CHILD, _, bleaf) =>
      withChildren c
        (ght_node_insert_children dup (withHash inc bleaf) c.children) :: rest
    | (.GHT_SPLIT, aleaf, bleaf) =>
      GhtNode.mk (c.hash.take (commonLen c.hash inc.hash)) 0 []
        [withHash c aleaf, withHash inc bleaf] :: rest
    | (_, _, _) => c :: ght_node_insert_children dup inc rest
termination_by l => sizeOf l
decreasing_by
  all_goals simp only [List.cons.sizeOf_spec]
  · have h1 := sizeOf_children_lt c
    omega
  · omega

/-- Modelled from the spec: `ght_node_insert_node` adds the incoming node to
the tree of nodes headed by `node`. -/
def ght_node_insert_node (node inc : GhtNode) (dup : GhtDuplicates) : GhtNode :=
  withChildren node (ght_node_insert_children dup inc node.children)

mutual

/-- Modelled from the spec: `ght_node_count_leaves`; a node without children
counts as one leaf, otherwise the children's leaves are summed. -/
def ght_node_count_leaves : GhtNode → Nat
  | .mk _ _ _ [] => 1
  | .mk _ _ _ (c :: cs) => countLeavesList (c :: cs)

def countLeavesList : List GhtNode → Nat
  | [] => 0
  | c :: cs => ght_node_count_leaves c + countLeavesList cs

end

mutual

/-- Absolute hashes of the leaves of the subtree rooted at a node, the node's
own fragment included. -/
def nodeLeaves : GhtNode → List (List Char)
  | .mk h _ _ [] => [h]
  | .mk h _ _ (c :: cs) => (listLeaves (c :: cs)).map (fun l => h ++ l)

def listLeaves : List GhtNode → List (List Char)
  | [] => []
  | c :: cs => nodeLeaves c ++ listLeaves cs

end

mutual

/-- Well-formedness of a subtree at remaining depth `d`: every fragment is
non-empty, leaves sit exactly at depth `d` and internal nodes strictly
above it. -/
def WFN (d : Nat) (n : GhtNode) : Prop :=
  n.hash ≠ [] ∧ (n.children = [] → n.hash.length = d)
    ∧ (n.children ≠ [] → n.hash.length < d ∧ WFL (d - n.hash.length) n.children)
termination_by sizeOf n
decreasing_by
  have h1 := sizeOf_children_lt n
  omega

def WFL (d : Nat) : List GhtNode → Prop
  | [] => True
  | c :: cs => WFN d c ∧ WFL d cs
termination_by l => sizeOf l
decreasing_by
  · simp only [List.cons.sizeOf_spec]
    omega
  · simp only [List.cons.sizeOf_spec]
    omega

end

/-- Modelled from the spec: the root node of a fresh tree carries the empty
(global) hash and starts with no children. -/
def makeRoot : GhtNode := .mk [] 0 [] []

/-! ## Filtering (section 4.5 of the spec). -/

def dimCount (dm : Nat) (attrs : List GhtAttribute) : Nat :=
  attrs.countP (fun a => a.dim == dm)

/-- The observation accumulated at a node: the node's own value for the
dimension when present, otherwise the value inherited from the ancestors. -/
def obsStep (schema : GhtSchema) (dm : Nat) (acc : Option ℚ)
    (attrs : List GhtAttribute) : Option ℚ :=
  match getByDim attrs dm with
  | some a => some (ght_attribute_get_value schema a)
  | none => acc

mutual

/-- Leaves of a subtree together with the value each leaf observes for a
dimension, ancestors' compacted attributes counted; `acc` carries the value
inherited from above. -/
def leavesObs (schema : GhtSchema) (dm : Nat) (acc : Option ℚ) (n : GhtNode) :
    List (List Char × Option ℚ) :=
  if n.children.isEmpty then
    [(n.hash, obsStep schema dm acc n.attributes)]
  else
    (leavesObsList schema dm (obsStep schema dm acc n.attributes)
      n.children).map (fun p => (n.hash ++ p.1, p.2))
termination_by sizeOf n
decreasing_by
  have h1 := sizeOf_children_lt n
  omega

def leavesObsList (schema : GhtSchema) (dm : Nat) (acc : Option ℚ) :
    List GhtNode → List (List Char × Option ℚ)
  | [] => []
  | c :: cs => leavesObs schema dm acc c ++ leavesObsList schema dm acc cs
termination_by l => sizeOf l
decreasing_by
  · simp only [List.cons.sizeOf_spec]
    omega
  · simp only [List.cons.sizeOf_spec]
    omega

end

mutual

/-- Largest number of attributes for dimension `dm` found on any single
root-to-leaf path of the subtree. -/
def pathMax (dm : Nat) (n : GhtNode) : Nat :=
  dimCount dm n.attributes + pathMaxList dm n.children
termination_by sizeOf n
decreasing_by
  have h1 := sizeOf_children_lt n
  omega

def pathMaxList (dm : Nat) : List GhtNode → Nat
  | [] => 0
  | c :: cs => max (pathMax dm c) (pathMaxList dm cs)
termination_by l => sizeOf l
decreasing_by
  · simp only [List.cons.sizeOf_spec]
    omega
  · simp only [List.cons.sizeOf_spec]
    omega

end

mutual

/-- Modelled from the spec: `ght_node_filter_by_attribute` (body not under
src), section 4.5.  If the filter's dimension is present at the node its
value decides the entire subtree (prune on failure, deep clone on success);
otherwise the children are filtered recursively and an internal node with no
surviving children is pruned. -/
def ght_node_filter_by_attribute (schema : GhtSchema) (f : GhtFilter)
    (n : GhtNode) : Option GhtNode :=
  match getByDim n.attributes f.dim with
  | some a =>
    if ght_filter_passes f (ght_attribute_get_value schema a) then some n
    else none
  | none =>
    match filterChildren schema f n.children with
    | [] => none
    | c :: cs => some (withChildren n (c :: cs))
termination_by sizeOf n
decreasing_by
  have h1 := sizeOf_children_lt n
  omega

def filterChildren (schema : GhtSchema) (f : GhtFilter) :
    List GhtNode → List GhtNode
  | [] => []
  | c :: cs =>
    match ght_node_filter_by_attribute schema f c with
    | none => filterChildren schema f cs
    | some c2 => c2 :: filterChildren schema f cs
termination_by l => sizeOf l
decreasing_by
  · simp only [List.cons.sizeOf_spec]
    omega
  · simp only [List.cons.sizeOf_spec]
    omega

end

def keepOpt (f : GhtFilter) : Option ℚ → Bool
  | none => false
  | some v => ght_filter_passes f v

def optLeavesObs (schema : GhtSchema) (dm : Nat) : Option GhtNode →
    List (List Char × Option ℚ)
  | none => []
  | some n => leavesObs schema dm none n

/-! ## Attribute compaction (section 4.3 of the spec). -/

/-- Modelled from the spec: `ght_node_delete_attribute` removes the (single)
attribute of a dimension from a node's list; modelled as removal of the
first matching entry. -/
def removeAttr (d : Nat) : List GhtAttribute → List GhtAttribute
  | [] => []
  | a :: as => if a.dim == d then as else a :: removeAttr d as

def stripTop (d : Nat) (n : GhtNode) : GhtNode :=
  withAttrs n (removeAttr d n.attributes)

/-- Two child results agree when both are present with identical packed
values. -/
def mergeAgree : Option Int → Option Int → Option Int
  | some v, some w => if v = w then some v else none
  | _, _ => none

/-- The common value of a non-empty list of child results when every child
returned an attribute and all packed values are identical, `none`
otherwise. -/
def allAgree : List (Option Int) → Option Int
  | [] => none
  | [o] => o
  | o :: o2 :: rest => mergeAgree o (allAgree (o2 :: rest))

mutual

/-- Modelled from the spec: `ght_node_compact_attribute` for one dimension
(body not under src), section 4.3.  A leaf reports its value for the
dimension; an internal node whose children all report byte-identical values
removes those attributes from the children, attaches the value to itself and
reports it upward; otherwise nothing changes at this level.  Returns the
rewritten node together with the reported value. -/
def ght_node_compact_attribute (d : Nat) (n : GhtNode) : GhtNode × Option Int :=
  if n.children.isEmpty then
    (n, (getByDim n.attributes d).map GhtAttribute.val)
  else
    match allAgree ((compactList d n.children).map (fun p => p.2)) with
    | some v =>
      (GhtNode.mk n.hash n.ghtFlag (GhtAttribute.mk d v :: n.attributes)
        ((compactList d n.children).map (fun p => stripTop d p.1)), some v)
    | none =>
      (GhtNode.mk n.hash n.ghtFlag n.attributes
        ((compactList d n.children).map (fun p => p.1)), none)
termination_by sizeOf n
decreasing_by
  all_goals
    have h1 := sizeOf_children_lt n
    omega

def compactList (d : Nat) : List GhtNode → List (GhtNode × Option Int)
  | [] => []
  | c :: cs => ght_node_compact_attribute d c :: compactList d cs
termination_by l => sizeOf l
decreasing_by
  · simp only [List.cons.sizeOf_spec]
    omega
  · simp only [List.cons.sizeOf_spec]
    omega

end

/-- Modelled from the spec: `ght_tree_compact_attributes` runs the
single-dimension compaction for every schema dimension from position 2
onward (X and Y live in the hash). -/
def ght_tree_compact_attributes (t : GhtTree) : GhtTree :=
  GhtTree.mk t.schema
    (((List.range t.schema.length).drop 2).foldl
      (fun r d => (ght_node_compact_attribute d r).1) t.root)
    t.num_nodes t.config

/-- Multiset of packed values carried for dimension `d` by an attribute
list. -/
def attrValsM (d : Nat) (attrs : List GhtAttribute) : Multiset Int :=
  ((attrs.filter (fun a => a.dim == d)).map GhtAttribute.val : List Int)

mutual

/-- Per-leaf observations for dimension `d`: each leaf of the subtree paired
with the multiset of `d`-values found on its root-to-leaf path; `acc` is the
multiset collected above the node. -/
def obsM (d : Nat) (acc : Multiset Int) (n : GhtNode) :
    List (List Char × Multiset Int) :=
  if n.children.isEmpty then
    [(n.hash, acc + attrValsM d n.attributes)]
  else
    (obsMList d (acc + attrValsM d n.attributes) n.children).map
      (fun p => (n.hash ++ p.1, p.2))
termination_by sizeOf n
decreasing_by
  have h1 := sizeOf_children_lt n
  omega

def obsMList (d : Nat) (acc : Multiset Int) :
    List GhtNode → List (List Char × Multiset Int)
  | [] => []
  | c :: cs => obsM d acc c ++ obsMList d acc cs
termination_by l => sizeOf l
decreasing_by
  · simp only [List.cons.sizeOf_spec]
    omega
  · simp only [List.cons.sizeOf_spec]
    omega

end

mutual

/-- Every leaf's attribute list has at most one entry per dimension (the
attribute list is semantically a map, section 9 of the spec). -/
def leafDimsOk (n : GhtNode) : Prop :=
  if n.children.isEmpty then (n.attributes.map GhtAttribute.dim).Nodup
  else leafDimsOkList n.children
termination_by sizeOf n
decreasing_by
  have h1 := sizeOf_children_lt n
  omega

def leafDimsOkList : List GhtNode → Prop
  | [] => True
  | c :: cs => leafDimsOk c ∧ leafDimsOkList cs
termination_by l => sizeOf l
decreasing_by
  · simp only [List.cons.sizeOf_spec]
    omega
  · simp only [List.cons.sizeOf_spec]
    omega

end

mutual

/-- No internal node of the subtree has all children agreeing on dimension
`d`: rerunning the compaction changes nothing. -/
def noAgree (d : Nat) (n : GhtNode) : Prop :=
  n.children ≠ [] →
    (allAgree ((compactList d n.children).map (fun p => p.2)) = none
      ∧ noAgreeList d n.children)
termination_by sizeOf n
decreasing_by
  have h1 := sizeOf_children_lt n
  omega

def noAgreeList (d : Nat) : List GhtNode → Prop
  | [] => True
  | c :: cs => noAgree d c ∧ noAgreeList d cs
termination_by l => sizeOf l
decreasing_by
  · simp only [List.cons.sizeOf_spec]
    omega
  · simp only [List.cons.sizeOf_spec]
    omega

end

mutual

/-- Total number of `d`-entries sitting on leaves of the subtree. -/
def tle (d : Nat) (n : GhtNode) : Nat :=
  if n.children.isEmpty then dimCount d n.attributes else tleList d n.children
termination_by sizeOf n
decreasing_by
  have h1 := sizeOf_children_lt n
  omega

def tleList (d : Nat) : List GhtNode → Nat
  | [] => 0
  | c :: cs => tle d c + tleList d cs
termination_by l => sizeOf l
decreasing_by
  · simp only [List.cons.sizeOf_spec]
    omega
  · simp only [List.cons.sizeOf_spec]
    omega

end

mutual

/-- `d`-similarity: two nodes agree on everything the `d`-compaction and the
`d`-observations read — hash, first `d`-attribute, multiset of `d`-values,
and recursively the children. -/
def dSim (d : Nat) (m n : GhtNode) : Prop :=
  m.hash = n.hash
  ∧ getByDim m.attributes d = getByDim n.attributes d
  ∧ attrValsM d m.attributes = attrValsM d n.attributes
  ∧ dSimList d m.children n.children
termination_by sizeOf m
decreasing_by
  have h1 := sizeOf_children_lt m
  omega

def dSimList (d : Nat) : List GhtNode → List GhtNode → Prop
  | [], [] => True
  | [], _ :: _ => False
  | _ :: _, [] => False
  | a :: as, b :: bs => dSim d a b ∧ dSimList d as bs
termination_by l _ => sizeOf l
decreasing_by
  · simp only [List.cons.sizeOf_spec]
    omega
  · simp only [List.cons.sizeOf_spec]
    omega

end

/-- The node part of a single-dimension compaction. -/
def compactNode (d : Nat) (n : GhtNode) : GhtNode :=
  (ght_node_compact_attribute d n).1

/-- The reported value of a single-dimension compaction. -/
def compactYield (d : Nat) (n : GhtNode) : Option Int :=
  (ght_node_compact_attribute d n).2

/-! ## Serialization (section 4.6 of the spec). -/

/-- Modelled from the header's `GhtTypeSizes` table: packed byte counts for
unknown, int8, uint8, int16, uint16, int32, uint32, int64, uint64, double,
float (the unknown slot is unusable and modelled as 0). -/
def typeSize (ty : Nat) : Nat := [0, 1, 1, 2, 2, 4, 4, 8, 8, 8, 4].getD ty 0

/-- The signed integer interpretations int8, int16, int32, int64. -/
def isSignedType (ty : Nat) : Bool :=
  (ty == 1) || (ty == 3) || (ty == 5) || (ty == 7)

/-- Little-endian encoding of a natural into a fixed number of bytes. -/
def natToLE : Nat → Nat → List Nat
  | 0, _ => []
  | s + 1, v => v % 256 :: natToLE s (v / 256)

/-- Little-endian decoding of a byte list. -/
def leToNat : List Nat → Nat
  | [] => 0
  | b :: bs => b % 256 + 256 * leToNat bs

/-- Packed little-endian bytes of a quantized value: its two's-complement
residue in `s` bytes. -/
def packVal (s : Nat) (v : Int) : List Nat :=
  natToLE s ((v % (2 ^ (8 * s))).toNat)

/-- Decode `s` packed bytes, two's-complement for the signed types. -/
def unpackVal (signed : Bool) (s : Nat) (bs : List Nat) : Int :=
  if signed = true ∧ 2 ^ (8 * s - 1) ≤ leToNat bs
  then (leToNat bs : Int) - 2 ^ (8 * s) else (leToNat bs : Int)

/-- The values representable in `s` bytes under the given signedness. -/
def valInRange (signed : Bool) (s : Nat) (v : Int) : Prop :=
  if signed then -(2 ^ (8 * s - 1)) ≤ v ∧ v < 2 ^ (8 * s - 1)
  else 0 ≤ v ∧ v < 2 ^ (8 * s)

/-- Modelled from the spec: one serialized attribute, `dim_index:1` then
`packed_bytes:size(dim)` (section 4.6). -/
def serAttr (schema : GhtSchema) (a : GhtAttribute) : List Nat :=
  a.dim % 256 :: packVal (typeSize (dimOf schema a.dim).ghtype) a.val

mutual

/-- Modelled from the spec: `ght_node_write` emits
`hash_len:1, hash_bytes, flag:1, attr_count:1, attrs, child_count:4,
children` in pre-order DFS (section 4.6, little-endian). -/
def ght_node_write (schema : GhtSchema) (n : GhtNode) : List Nat :=
  n.hash.length % 256
    :: (n.hash.map (fun c => c.toNat % 256)
      ++ n.ghtFlag % 256
        :: n.attributes.length % 256
          :: ((n.attributes.map (serAttr schema)).flatten
            ++ (natToLE 4 n.children.length
              ++ ght_node_write_list schema n.children)))
termination_by sizeOf n
decreasing_by
  have h1 := sizeOf_children_lt n
  omega

def ght_node_write_list (schema : GhtSchema) : List GhtNode → List Nat
  | [] => []
  | c :: cs => ght_node_write schema c ++ ght_node_write_list schema cs
termination_by l => sizeOf l
decreasing_by
  · simp only [List.cons.sizeOf_spec]
    omega
  · simp only [List.cons.sizeOf_spec]
    omega

end

/-- Modelled from the spec: the four magic bytes of the file header.  The
spec fixes their count and that writer and reader must agree on them, not
their value. -/
def ghtMagic : List Nat := [103, 104, 116, 48]

/-- Modelled from the spec: the 8-byte header
`magic:4, version:1, endian:1, reserved:2` (version 1, little-endian). -/
def serHeader : List Nat := ghtMagic ++ [1, 1, 0, 0]

/-- Modelled from the spec: `ght_tree_write` emits the header, `num_nodes:4`
and the root node (section 4.6). -/
def ght_tree_write (t : GhtTree) : List Nat :=
  serHeader ++ natToLE 4 t.num_nodes ++ ght_node_write t.schema t.root

def readByte : List Nat → Option (Nat × List Nat)
  | [] => none
  | b :: bs => some (b, bs)

def readN (k : Nat) (bs : List Nat) : Option (List Nat × List Nat) :=
  if bs.length < k then none else some (bs.take k, bs.drop k)

/-- Modelled from the spec: read `attr_count` serialized attributes, each a
dimension index byte and `size(dim)` packed bytes. -/
def parseAttrs (schema : GhtSchema) :
    Nat → List Nat → Option (List GhtAttribute × List Nat)
  | 0, bs => some ([], bs)
  | k + 1, bs =>
    match readByte bs with
    | none => none
    | some (dm, bs1) =>
      match readN (typeSize (dimOf schema dm).ghtype) bs1 with
      | none => none
      | some (vb, bs2) =>
        match parseAttrs schema k bs2 with
        | none => none
        | some (attrs, bs3) =>
          some (GhtAttribute.mk dm
            (unpackVal (isSignedType (dimOf schema dm).ghtype)
              (typeSize (dimOf schema dm).ghtype) vb) :: attrs, bs3)

mutual

/-- Modelled from the spec: `ght_node_read` consumes exactly the bytes the
writer produces for one node; `fuel` bounds the recursion depth. -/
def ght_node_read (schema : GhtSchema) :
    Nat → List Nat → Option (GhtNode × List Nat)
  | 0, _ => none
  | fuel + 1, bs =>
    match readByte bs with
    | none => none
    | some (hlen, bs1) =>
      match readN hlen bs1 with
      | none => none
      | some (hb, bs2) =>
        match readByte bs2 with
        | none => none
        | some (flag, bs3) =>
          match readByte bs3 with
          | none => none
          | some (acount, bs4) =>
            match parseAttrs schema acount bs4 with
            | none => none
            | some (attrs, bs5) =>
              match readN 4 bs5 with
              | none => none
              | some (cb, bs6) =>
                match ght_node_read_list schema fuel (leToNat cb) bs6 with
                | none => none
                | some (children, bs7) =>
                  some (GhtNode.mk (hb.map Char.ofNat) flag attrs children,
                    bs7)
termination_by fuel _ => (fuel, 0)

def ght_node_read_list (schema : GhtSchema) :
    Nat → Nat → List Nat → Option (List GhtNode × List Nat)
  | _, 0, bs => some ([], bs)
  | fuel, k + 1, bs =>
    match ght_node_read schema fuel bs with
    | none => none
    | some (n, bs1) =>
      match ght_node_read_list schema fuel k bs1 with
      | none => none
      | some (ns, bs2) => some (n :: ns, bs2)
termination_by fuel k _ => (fuel, k + 1)

end

/-- Modelled from the spec: `ght_tree_read` checks magic and version, skips
endian and reserved bytes, reads `num_nodes:4` and the root node; the
schema arrives out of band (section 4.6). -/
def ght_tree_read (schema : GhtSchema) (bs : List Nat) : Option GhtTree :=
  match readN 4 bs with
  | none => none
  | some (magic, b1) =>
    if magic = ghtMagic then
      match readByte b1 with
      | none => none
      | some (ver, b2) =>
        if ver = 1 then
          match readByte b2 with
          | none => none
          | some (_, b3) =>
            match readN 2 b3 with
            | none => none
            | some (_, b4) =>
              match readN 4 b4 with
              | none => none
              | some (nb, b5) =>
                match ght_node_read schema (b5.length + 1) b5 with
                | none => none
                | some (root, _) =>
                  some (GhtTree.mk schema root (leToNat nb) defaultConfig)
        else none
    else none

mutual

/-- A node whose byte-level fields all fit the wire format: byte-sized
lengths, flag and dimension indices, 32-bit child count, and attribute
values in range for their dimension's type. -/
def serWF (schema : GhtSchema) (n : GhtNode) : Prop :=
  n.hash.length < 256
  ∧ (∀ c ∈ n.hash, c.toNat < 256)
  ∧ n.ghtFlag < 256
  ∧ n.attributes.length < 256
  ∧ (∀ a ∈ n.attributes, a.dim < 256
      ∧ 1 ≤ typeSize (dimOf schema a.dim).ghtype
      ∧ valInRange (isSignedType (dimOf schema a.dim).ghtype)
          (typeSize (dimOf schema a.dim).ghtype) a.val)
  ∧ n.children.length < 2 ^ 32
  ∧ serWFList schema n.children
termination_by sizeOf n
decreasing_by
  have h1 := sizeOf_children_lt n
  omega

def serWFList (schema : GhtSchema) : List GhtNode → Prop
  | [] => True
  | c :: cs => serWF schema c ∧ serWFList schema cs
termination_by l => sizeOf l
decreasing_by
  · simp only [List.cons.sizeOf_spec]
    omega
  · simp only [List.cons.sizeOf_spec]
    omega

end

/-! ## Memory model for `ght_tree_free` (section 5 of the spec). -/

/-- An allocation map: which addresses are currently live. -/
def Alloc := Nat → Bool

/-- A node as laid out in memory: its own address, the address of its hash
buffer, the addresses of its attribute cells, and its children. -/
inductive MemNode where
  | mk : Nat → Nat → List Nat → List MemNode → MemNode

def MemNode.addr : MemNode → Nat
  | .mk a _ _ _ => a

def MemNode.hashAddr : MemNode → Nat
  | .mk _ h _ _ => h

def MemNode.attrAddrs : MemNode → List Nat
  | .mk _ _ l _ => l

def MemNode.children : MemNode → List MemNode
  | .mk _ _ _ c => c

def MemNode.sizeOf_children_lt (n : MemNode) :
    sizeOf n.children < sizeOf n := by
  cases n with
  | mk a h l c =>
    simp only [MemNode.children, MemNode.mk.sizeOf_spec]
    omega

def memSizeOf_lt_of_mem (c : MemNode) :
    ∀ l : List MemNode, c ∈ l → sizeOf c < sizeOf l
  | [], h => absurd h (List.not_mem_nil c)
  | x :: xs, h => by
    have hs : sizeOf (x :: xs) = 1 + sizeOf x + sizeOf xs := by
      simp only [List.cons.sizeOf_spec]
    rcases List.mem_cons.mp h with h | h
    · subst h
      omega
    · have := memSizeOf_lt_of_mem c xs h
      omega

/-- Release one address. -/
def free1 (a : Alloc) (p : Nat) : Alloc := fun q => if q = p then false else a q

/-- Release a list of addresses. -/
def freeAddrs (a : Alloc) (ps : List Nat) : Alloc := ps.foldl free1 a

mutual

/-- Modelled from the spec's resource model (section 5) and the header's
`ght_node_free`: release the node's hash buffer, its attribute cells, all
descendants, and finally the node itself. -/
def ght_node_free (a : Alloc) (n : MemNode) : Alloc :=
  free1
    (ght_node_free_children (freeAddrs a (n.hashAddr :: n.attrAddrs))
      n.children)
    n.addr
termination_by sizeOf n
decreasing_by
  have h1 := MemNode.sizeOf_children_lt n
  omega

def ght_node_free_children (a : Alloc) : List MemNode → Alloc
  | [] => a
  | c :: cs => ght_node_free_children (ght_node_free a c) cs
termination_by l => sizeOf l
decreasing_by
  · simp only [List.cons.sizeOf_spec]
    omega
  · simp only [List.cons.sizeOf_spec]
    omega

end

mutual

/-- All addresses owned by a node's subtree. -/
def nodeAddrs (n : MemNode) : List Nat :=
  n.addr :: n.hashAddr :: (n.attrAddrs ++ nodeAddrsList n.children)
termination_by sizeOf n
decreasing_by
  have h1 := MemNode.sizeOf_children_lt n
  omega

def nodeAddrsList : List MemNode → List Nat
  | [] => []
  | c :: cs => nodeAddrs c ++ nodeAddrsList cs
termination_by l => sizeOf l
decreasing_by
  · simp only [List.cons.sizeOf_spec]
    omega
  · simp only [List.cons.sizeOf_spec]
    omega

end

/-- A tree in memory: the root's subgraph is owned by the tree, the schema
is referenced, not owned. -/
structure MemTree where
  root : MemNode
  schemaAddrs : List Nat

/-- Modelled from the header's `ght_tree_free`: release the root's subgraph
and nothing else; the schema is shared read-only and left alone. -/
def ght_tree_free (t : MemTree) (a : Alloc) : Alloc :=
  ght_node_free a t.root

/-! ## Heap model for `ght_attribute_get_by_dimension` (section 4.4). -/

/-- One attribute cell as laid out in memory: dimension index, pointer to
the next cell (`none` is null), packed value. -/
structure AttrCell where
  dim : Nat
  next : Option Nat
  val : Int
deriving DecidableEq

/-- A heap of attribute cells. -/
def AttrHeap := Nat → Option AttrCell

/-- Store a cell at an address. -/
def writeCell (h : AttrHeap) (p : Nat) (c : AttrCell) : AttrHeap :=
  fun q => if q = p then some c else h q

/-- The chain starting at a head pointer is laid out by the given
address-cell pairs. -/
def repChain (h : AttrHeap) : Option Nat → List (Nat × AttrCell) → Prop
  | none, [] => True
  | some _, [] => False
  | none, _ :: _ => False
  | some p, (q, c) :: rest => q = p ∧ h p = some c ∧ repChain h c.next rest

/-- Modelled from the header doc: `ght_attribute_get_by_dimension` walks the
chain from the head pointer and, at the first cell whose dimension matches,
copies that cell's contents into the caller-supplied cell at `out`; the
chain itself is only read.  Returns the heap and whether a match was
found. -/
def ght_attribute_get_by_dimension (h : AttrHeap) (d out : Nat) :
    Nat → Option Nat → AttrHeap × Bool
  | 0, _ => (h, false)
  | _ + 1, none => (h, false)
  | fuel + 1, some q =>
    match h q with
    | none => (h, false)
    | some c =>
      if c.dim = d then (writeCell h out c, true)
      else ght_attribute_get_by_dimension h d out fuel c.next

theorem commonLen_le_left : ∀ a b : List Char, commonLen a b ≤ a.length
  | [], b => by cases b <;> simp [commonLen]
  | _ :: _, [] => by simp [commonLen]
  | x :: xs, y :: ys => by
    by_cases h : x = y <;> simp only [commonLen, h, if_true, if_false, List.length_cons]
    · exact Nat.succ_le_succ (commonLen_le_left xs ys)
    · exact Nat.zero_le _

theorem commonLen_le_right : ∀ a b : List Char, commonLen a b ≤ b.length
  | [], b => by cases b <;> simp [commonLen]
  | _ :: _, [] => by simp [commonLen]
  | x :: xs, y :: ys => by
    by_cases h : x = y <;> simp only [commonLen, h, if_true, if_false, List.length_cons]
    · exact Nat.succ_le_succ (commonLen_le_right xs ys)
    · exact Nat.zero_le _

theorem commonLen_take_eq :
    ∀ a b : List Char, a.take (commonLen a b) = b.take (commonLen a b)
  | [], b => by cases b <;> simp [commonLen]
  | _ :: _, [] => by simp [commonLen]
  | x :: xs, y :: ys => by
    by_cases h : x = y
    · simp only [commonLen, h, if_true, List.take_succ_cons]
      rw [commonLen_take_eq xs ys]
    · simp [commonLen, h]

theorem le_commonLen :
    ∀ (a b : List Char) (k : Nat), k ≤ a.length → k ≤ b.length →
      a.take k = b.take k → k ≤ commonLen a b := by
  intro a
  induction a with
  | nil => intro b k h1 _ _; simp at h1; omega
  | cons x xs ih =>
    intro b k h1 h2 h3
    cases b with
    | nil => simp at h2; omega
    | cons y ys =>
      cases k with
      | zero => exact Nat.zero_le _
      | succ k =>
        simp only [List.take_succ_cons, List.cons.injEq] at h3
        simp only [List.length_cons, Nat.succ_le_succ_iff] at h1 h2
        simp only [commonLen, h3.1, if_true]
        exact Nat.succ_le_succ (ih ys k h1 h2 h3.2)

theorem commonLen_self : ∀ a : List Char, commonLen a a = a.length
  | [] => by simp [commonLen]
  | x :: xs => by simp [commonLen, commonLen_self xs]

theorem eq_of_commonLen_full (a b : List Char)
    (h1 : commonLen a b = a.length) (h2 : commonLen a b = b.length) : a = b := by
  have hl : a.length = b.length := by rw [← h1, h2]
  have h := commonLen_take_eq a b
  rw [h1, List.take_length, hl, List.take_length] at h
  exact h

theorem lpGlobal (a b : List Char) (h : a = []) :
    ght_hash_leaf_parts a b = (.GHT_GLOBAL, [], b) := by
  simp [ght_hash_leaf_parts, h]

theorem lpSame (a b : List Char) (h0 : a ≠ []) (h : a = b) :
    ght_hash_leaf_parts a b = (.GHT_SAME, [], []) := by
  subst h
  simp [ght_hash_leaf_parts, h0]

theorem lpChild (a b : List Char) (h0 : a ≠ []) (h1 : a ≠ b)
    (h2 : commonLen a b = a.length) :
    ght_hash_leaf_parts a b = (.GHT_CHILD, [], b.drop (commonLen a b)) := by
  simp [ght_hash_leaf_parts, h0, h1, h2]

theorem lpSplitOnB (a b : List Char) (h0 : a ≠ []) (h1 : a ≠ b)
    (h2 : commonLen a b ≠ a.length) (h3 : commonLen a b = b.length) :
    ght_hash_leaf_parts a b = (.GHT_SPLIT, a.drop (commonLen a b), []) := by
  have h2' : ¬ b.length = a.length := by omega
  simp [ght_hash_leaf_parts, h0, h1, h3, h2']

theorem lpSplitBoth (a b : List Char) (h0 : a ≠ []) (h1 : a ≠ b)
    (h2 : commonLen a b ≠ a.length) (h3 : commonLen a b ≠ b.length)
    (h4 : 0 < commonLen a b) :
    ght_hash_leaf_parts a b =
      (.GHT_SPLIT, a.drop (commonLen a b), b.drop (commonLen a b)) := by
  simp [ght_hash_leaf_parts, h0, h1, h2, h3, h4]

theorem lpNone (a b : List Char) (h0 : a ≠ []) (h0b : b ≠ [])
    (h2 : commonLen a b = 0) :
    ght_hash_leaf_parts a b = (.GHT_NONE, a, b) := by
  have h1 : a ≠ b := by
    intro h
    subst h
    rw [commonLen_self] at h2
    exact h0 (List.length_eq_zero.mp h2)
  have ha : commonLen a b ≠ a.length := by
    rw [h2]; intro h; exact h0 (List.length_eq_zero.mp h.symm)
  have hb : commonLen a b ≠ b.length := by
    rw [h2]; intro h; exact h0b (List.length_eq_zero.mp h.symm)
  have haa : ¬ ((0 : Nat) = a.length) := by omega
  have hbb : ¬ ((0 : Nat) = b.length) := by omega
  simp [ght_hash_leaf_parts, h0, h1, h2, haa, hbb]

/-- C7: for all hashes `a`, `b` and bound `m`, `ght_hash_common_length` returns
the length of the longest shared prefix (characterized by the hypotheses on
`n`) clamped to `m`, except that it returns `0` when either hash is empty and
`-1` when both are non-empty and share no prefix at all. -/
theorem C7_common_length (a b : List Char) (m n : Nat)
    (h1 : a.take n = b.take n) (h2 : n ≤ a.length) (h3 : n ≤ b.length)
    (h4 : ∀ k, k ≤ a.length → k ≤ b.length → a.take k = b.take k → k ≤ n) :
    ght_hash_common_length a b m =
      if a = [] ∨ b = [] then 0
      else if n = 0 then -1
      else Int.ofNat (min n m) := by
  have hn : n = commonLen a b :=
    Nat.le_antisymm (le_commonLen a b n h2 h3 h1)
      (h4 (commonLen a b) (commonLen_le_left a b) (commonLen_le_right a b)
        (commonLen_take_eq a b))
  rw [ght_hash_common_length, hn]

theorem C7_common_length_witness :
    ght_hash_common_length (['a', 'b', 'c']) (['a', 'b', 'd']) 5 = 2 := by
  have h := C7_common_length (['a', 'b', 'c']) (['a', 'b', 'd']) 5 2
    (by decide) (by decide) (by decide)
    (by decide)
  rw [h]
  decide

/-- C1: `ght_hash_leaf_parts` classifies a pair of hashes with shared prefix
length `n = commonLen a b` according to the leaf-parts table, read top to
bottom: GLOBAL when `a` is empty, SAME when the hashes are equal, CHILD with
`b_leaf = b[n:]` when `n = len a < len b`, SPLIT with `b_leaf = ""` when
`n = len b < len a`, SPLIT with both tails when `0 < n < min (len a) (len b)`,
and NONE returning the inputs when `n = 0` with both non-empty. -/
theorem C1_leaf_parts (a b : List Char) :
    (a = [] → ght_hash_leaf_parts a b = (.GHT_GLOBAL, [], b))
    ∧ (a ≠ [] → a = b → ght_hash_leaf_parts a b = (.GHT_SAME, [], []))
    ∧ (a ≠ [] → commonLen a b = a.length → a.length < b.length →
        ght_hash_leaf_parts a b = (.GHT_CHILD, [], b.drop (commonLen a b)))
    ∧ (commonLen a b = b.length → b.length < a.length →
        ght_hash_leaf_parts a b = (.GHT_SPLIT, a.drop (commonLen a b), []))
    ∧ (0 < commonLen a b → commonLen a b < a.length → commonLen a b < b.length →
        ght_hash_leaf_parts a b =
          (.GHT_SPLIT, a.drop (commonLen a b), b.drop (commonLen a b)))
    ∧ (commonLen a b = 0 → a ≠ [] → b ≠ [] →
        ght_hash_leaf_parts a b = (.GHT_NONE, a, b)) := by
  refine ⟨fun h => lpGlobal a b h, fun h0 h => lpSame a b h0 h, ?_, ?_, ?_, ?_⟩
  · intro h0 h2 hlt
    have h1 : a ≠ b := fun h => by subst h; omega
    exact lpChild a b h0 h1 h2
  · intro h3 hlt
    have h0 : a ≠ [] := by
      intro h; subst h; simp at hlt
    have h1 : a ≠ b := fun h => by subst h; omega
    have h2 : commonLen a b ≠ a.length := by omega
    exact lpSplitOnB a b h0 h1 h2 h3
  · intro h4 hla hlb
    have h0 : a ≠ [] := by
      intro h; subst h; simp at hla
    have h1 : a ≠ b := fun h => by
      subst h; rw [commonLen_self] at h4 hla; omega
    exact lpSplitBoth a b h0 h1 (by omega) (by omega) h4
  · intro h2 h0 h0b
    exact lpNone a b h0 h0b h2

theorem C1_leaf_parts_witness :
    ght_hash_leaf_parts (['a', 'b', 'c', 'd', 'e']) (['a', 'b', 'c', 'p', 'q'])
      = (.GHT_SPLIT, ['d', 'e'], ['p', 'q']) := by
  have h := (C1_leaf_parts (['a', 'b', 'c', 'd', 'e'])
    (['a', 'b', 'c', 'p', 'q'])).2.2.2.2.1 (by decide) (by decide) (by decide)
  rw [h]
  decide

theorem GhtNode.ext_iff (n : GhtNode) :
    n = .mk n.hash n.ghtFlag n.attributes n.children := by
  cases n; rfl

theorem GhtNode.hash_mk (h : List Char) (f : Nat) (a : List GhtAttribute)
    (c : List GhtNode) : (GhtNode.mk h f a c).hash = h := rfl

theorem GhtNode.ghtFlag_mk (h : List Char) (f : Nat) (a : List GhtAttribute)
    (c : List GhtNode) : (GhtNode.mk h f a c).ghtFlag = f := rfl

theorem GhtNode.attributes_mk (h : List Char) (f : Nat) (a : List GhtAttribute)
    (c : List GhtNode) : (GhtNode.mk h f a c).attributes = a := rfl

theorem GhtNode.children_mk (h : List Char) (f : Nat) (a : List GhtAttribute)
    (c : List GhtNode) : (GhtNode.mk h f a c).children = c := rfl

/-- Strong induction over the node tree: to prove `P n` it is enough to prove
it assuming `P` for every child. -/
theorem GhtNode.strongInd (P : GhtNode → Prop)
    (ih : ∀ n : GhtNode, (∀ c ∈ n.children, P c) → P n) : ∀ n, P n := by
  have key : ∀ k (n : GhtNode), sizeOf n ≤ k → P n := by
    intro k
    induction k with
    | zero =>
      intro n h
      cases n with
      | mk a b c d =>
        simp only [GhtNode.mk.sizeOf_spec] at h
        omega
    | succ k ihk =>
      intro n h
      refine ih n (fun c hc => ihk c ?_)
      have h1 := sizeOf_lt_of_mem c n.children hc
      have h2 := sizeOf_children_lt n
      omega
  exact fun n => key (sizeOf n) n le_rfl

/-- C8: a filter in EQUAL mode accepts `v` against threshold `t` exactly when
`|v - t| ≤ 10⁻⁷`; the code's GHT_EPSILON constant, written with the literal
`10e-8`, equals `10⁻⁷`. -/
theorem C8_equal_epsilon :
    GHT_EPSILON = 1 / 10 ^ 7
    ∧ ∀ (r : GhtRange) (d : Nat) (v : ℚ),
        ght_filter_passes { range := r, mode := .GHT_EQUAL, dim := d } v = true
          ↔ |v - r.min| ≤ 1 / 10 ^ 7 := by
  have he : GHT_EPSILON = 1 / 10 ^ 7 := by norm_num [GHT_EPSILON]
  refine ⟨he, fun r d v => ?_⟩
  rw [ght_filter_passes]
  simp only [he]
  exact decide_eq_true_iff

theorem lonCount_closed : ∀ k, lonCount k true = (k + 1) / 2 ∧ lonCount k false = k / 2 := by
  intro k
  induction k with
  | zero => exact ⟨rfl, rfl⟩
  | succ k ih =>
    constructor
    · show lonCount k false + 1 = (k + 2) / 2
      omega
    · show lonCount k true = (k + 1) / 2
      exact ih.1

theorem encodeBits_length (x y : ℚ) :
    ∀ (k : Nat) (x0 x1 y0 y1 : ℚ) (lon : Bool),
      (encodeBits x y k x0 x1 y0 y1 lon).length = k := by
  intro k
  induction k with
  | zero => intro x0 x1 y0 y1 lon; rfl
  | succ k ih =>
    intro x0 x1 y0 y1 lon
    rw [encodeBits]
    by_cases hl : lon = true
    · subst hl
      by_cases hc : (x0 + x1) / 2 ≤ x <;> simp [hc, ih]
    · have : lon = false := by simp at hl; exact hl
      subst this
      by_cases hc : (y0 + y1) / 2 ≤ y <;> simp [hc, ih]

theorem encStepTLon (x y x0 x1 y0 y1 m : ℚ) (n k : Nat) (hn : n = k + 1)
    (hm : (x0 + x1) / 2 = m) (h : m ≤ x) :
    encodeBits x y n x0 x1 y0 y1 true
      = true :: encodeBits x y k m x1 y0 y1 false := by
  subst hn
  subst hm
  rw [encodeBits, if_pos rfl, if_pos h]

theorem encStepFLon (x y x0 x1 y0 y1 m : ℚ) (n k : Nat) (hn : n = k + 1)
    (hm : (x0 + x1) / 2 = m) (h : ¬ m ≤ x) :
    encodeBits x y n x0 x1 y0 y1 true
      = false :: encodeBits x y k x0 m y0 y1 false := by
  subst hn
  subst hm
  rw [encodeBits, if_pos rfl, if_neg h]

theorem encStepTLat (x y x0 x1 y0 y1 m : ℚ) (n k : Nat) (hn : n = k + 1)
    (hm : (y0 + y1) / 2 = m) (h : m ≤ y) :
    encodeBits x y n x0 x1 y0 y1 false
      = true :: encodeBits x y k x0 x1 m y1 true := by
  subst hn
  subst hm
  rw [encodeBits]
  simp only [Bool.false_eq_true, if_false]
  rw [if_pos h]

theorem encStepFLat (x y x0 x1 y0 y1 m : ℚ) (n k : Nat) (hn : n = k + 1)
    (hm : (y0 + y1) / 2 = m) (h : ¬ m ≤ y) :
    encodeBits x y n x0 x1 y0 y1 false
      = false :: encodeBits x y k x0 x1 y0 m true := by
  subst hn
  subst hm
  rw [encodeBits]
  simp only [Bool.false_eq_true, if_false]
  rw [if_neg h]

theorem decodeBits_nil (x0 x1 y0 y1 : ℚ) (lon : Bool) :
    decodeBits [] x0 x1 y0 y1 lon = { x := ⟨x0, x1⟩, y := ⟨y0, y1⟩ } := by
  rfl

theorem decodeBits_true_lon (bs : List Bool) (x0 x1 y0 y1 : ℚ) :
    decodeBits (true :: bs) x0 x1 y0 y1 true
      = decodeBits bs ((x0 + x1) / 2) x1 y0 y1 false := by
  rfl

theorem decodeBits_false_lon (bs : List Bool) (x0 x1 y0 y1 : ℚ) :
    decodeBits (false :: bs) x0 x1 y0 y1 true
      = decodeBits bs x0 ((x0 + x1) / 2) y0 y1 false := by
  rfl

theorem decodeBits_true_lat (bs : List Bool) (x0 x1 y0 y1 : ℚ) :
    decodeBits (true :: bs) x0 x1 y0 y1 false
      = decodeBits bs x0 x1 ((y0 + y1) / 2) y1 true := by
  rfl

theorem decodeBits_false_lat (bs : List Bool) (x0 x1 y0 y1 : ℚ) :
    decodeBits (false :: bs) x0 x1 y0 y1 false
      = decodeBits bs x0 x1 y0 ((y0 + y1) / 2) true := by
  rfl

/-- Core bisection invariant: the decoded cell of the encoded bits contains
the coordinate, and each bit exactly halves one dimension, so after `k` bits
the width has shrunk by `2 ^ lonCount` and the height by the rest. -/
theorem decode_encode (x y : ℚ) :
    ∀ (k : Nat) (x0 x1 y0 y1 : ℚ) (lon : Bool),
      x0 ≤ x → x ≤ x1 → y0 ≤ y → y ≤ y1 →
      (decodeBits (encodeBits x y k x0 x1 y0 y1 lon) x0 x1 y0 y1 lon).x.min ≤ x
      ∧ x ≤ (decodeBits (encodeBits x y k x0 x1 y0 y1 lon) x0 x1 y0 y1 lon).x.max
      ∧ (decodeBits (encodeBits x y k x0 x1 y0 y1 lon) x0 x1 y0 y1 lon).y.min ≤ y
      ∧ y ≤ (decodeBits (encodeBits x y k x0 x1 y0 y1 lon) x0 x1 y0 y1 lon).y.max
      ∧ ((decodeBits (encodeBits x y k x0 x1 y0 y1 lon) x0 x1 y0 y1 lon).x.max
          - (decodeBits (encodeBits x y k x0 x1 y0 y1 lon) x0 x1 y0 y1 lon).x.min)
          * 2 ^ lonCount k lon = x1 - x0
      ∧ ((decodeBits (encodeBits x y k x0 x1 y0 y1 lon) x0 x1 y0 y1 lon).y.max
          - (decodeBits (encodeBits x y k x0 x1 y0 y1 lon) x0 x1 y0 y1 lon).y.min)
          * 2 ^ lonCount k (!lon) = y1 - y0 := by
  intro k
  induction k with
  | zero =>
    intro x0 x1 y0 y1 lon h1 h2 h3 h4
    refine ⟨h1, h2, h3, h4, ?_, ?_⟩ <;> simp [encodeBits, decodeBits, lonCount]
  | succ k ih =>
    intro x0 x1 y0 y1 lon h1 h2 h3 h4
    cases lon with
    | true =>
      rw [encodeBits]
      simp only [if_true]
      by_cases hc : (x0 + x1) / 2 ≤ x
      · rw [if_pos hc, decodeBits_true_lon]
        have hr := ih ((x0 + x1) / 2) x1 y0 y1 false hc h2 h3 h4
        refine ⟨hr.1, hr.2.1, hr.2.2.1, hr.2.2.2.1, ?_, ?_⟩
        · have hx := hr.2.2.2.2.1
          show _ * 2 ^ (lonCount k false + 1) = x1 - x0
          rw [pow_succ, ← mul_assoc, hx]
          ring
        · have hy := hr.2.2.2.2.2
          simp only [Bool.not_true]
          show _ * 2 ^ (lonCount k true) = y1 - y0
          simpa using hy
      · rw [if_neg hc, decodeBits_false_lon]
        have hc' : x ≤ (x0 + x1) / 2 := by linarith [not_le.mp hc]
        have hr := ih x0 ((x0 + x1) / 2) y0 y1 false h1 hc' h3 h4
        refine ⟨hr.1, hr.2.1, hr.2.2.1, hr.2.2.2.1, ?_, ?_⟩
        · have hx := hr.2.2.2.2.1
          show _ * 2 ^ (lonCount k false + 1) = x1 - x0
          rw [pow_succ, ← mul_assoc, hx]
          ring
        · have hy := hr.2.2.2.2.2
          simp only [Bool.not_true]
          show _ * 2 ^ (lonCount k true) = y1 - y0
          simpa using hy
    | false =>
      rw [encodeBits]
      simp only [Bool.false_eq_true, if_false]
      by_cases hc : (y0 + y1) / 2 ≤ y
      · rw [if_pos hc, decodeBits_true_lat]
        have hr := ih x0 x1 ((y0 + y1) / 2) y1 true h1 h2 hc h4
        refine ⟨hr.1, hr.2.1, hr.2.2.1, hr.2.2.2.1, ?_, ?_⟩
        · have hx := hr.2.2.2.2.1
          show _ * 2 ^ (lonCount k true) = x1 - x0
          simpa using hx
        · have hy := hr.2.2.2.2.2
          simp only [Bool.not_false]
          show _ * 2 ^ (lonCount k false + 1) = y1 - y0
          simp only [Bool.not_true] at hy
          rw [pow_succ, ← mul_assoc, hy]
          ring
      · rw [if_neg hc, decodeBits_false_lat]
        have hc' : y ≤ (y0 + y1) / 2 := by linarith [not_le.mp hc]
        have hr := ih x0 x1 y0 ((y0 + y1) / 2) true h1 h2 h3 hc'
        refine ⟨hr.1, hr.2.1, hr.2.2.1, hr.2.2.2.1, ?_, ?_⟩
        · have hx := hr.2.2.2.2.1
          show _ * 2 ^ (lonCount k true) = x1 - x0
          simpa using hx
        · have hy := hr.2.2.2.2.2
          simp only [Bool.not_false]
          show _ * 2 ^ (lonCount k false + 1) = y1 - y0
          simp only [Bool.not_true] at hy
          rw [pow_succ, ← mul_assoc, hy]
          ring

theorem bitsVal_lt : ∀ l : List Bool, bitsVal l < 2 ^ l.length
  | [] => by simp [bitsVal]
  | b :: bs => by
    have h := bitsVal_lt bs
    cases b <;> simp [bitsVal, pow_succ] <;> omega

theorem char5_bitsVal :
    ∀ a b c d e : Bool, char5 (bitsVal [a, b, c, d, e]) = [a, b, c, d, e] := by
  decide

theorem charVal_getD : ∀ v : Nat, v < 32 → charVal (geoAlphabet.getD v '0') = some v := by
  decide

theorem toChars_mapM :
    ∀ (N : Nat) (bits : List Bool), bits.length ≤ N → bits.length % 5 = 0 →
      (toChars bits).mapM charVal = some ((chunk5 bits).map bitsVal)
      ∧ (((chunk5 bits).map bitsVal).map char5).flatten = bits := by
  intro N
  induction N with
  | zero =>
    intro bits h1 _
    have hb : bits = [] := List.eq_nil_of_length_eq_zero (by omega)
    subst hb
    exact ⟨rfl, rfl⟩
  | succ N ih =>
    intro bits h1 h2
    match bits with
    | [] => exact ⟨rfl, rfl⟩
    | [a] => simp at h2
    | [a, b] => simp at h2
    | [a, b, c] => simp at h2
    | [a, b, c, d] => simp at h2
    | a :: b :: c :: d :: e :: rest =>
      have hchunk : chunk5 (a :: b :: c :: d :: e :: rest)
          = [a, b, c, d, e] :: chunk5 rest := rfl
      have hlen5 : (([a, b, c, d, e] : List Bool)).length = 5 := rfl
      have hv : bitsVal [a, b, c, d, e] < 32 := by
        have := bitsVal_lt [a, b, c, d, e]
        rw [hlen5] at this
        omega
      have hrest1 : rest.length ≤ N := by
        simp only [List.length_cons] at h1
        omega
      have hrest2 : rest.length % 5 = 0 := by
        simp only [List.length_cons] at h2
        omega
      have hr := ih rest hrest1 hrest2
      constructor
      · rw [toChars, hchunk]
        simp only [List.map_cons, List.mapM_cons]
        rw [charVal_getD (bitsVal [a, b, c, d, e]) hv]
        have hm : (toChars rest).mapM charVal = some ((chunk5 rest).map bitsVal) := hr.1
        rw [toChars] at hm
        rw [hm]
        rfl
      · rw [hchunk]
        simp only [List.map_cons, List.flatten_cons]
        rw [char5_bitsVal a b c d e, hr.2]
        rfl

theorem area_from_toChars (bits : List Bool) (h : bits.length % 5 = 0) :
    ght_area_from_hash (toChars bits)
      = some (decodeBits bits (-180) 180 (-90) 90 true) := by
  have h2 := toChars_mapM bits.length bits le_rfl h
  rw [ght_area_from_hash, h2.1, Option.map_some', h2.2]

/-- C6 (amended): for every in-range coordinate and every resolution within
the maximum, the area decoded from the encoded hash contains the coordinate;
each additional character adds five bisection bits, so after `r` characters
the cell's width is `360 / 2 ^ ⌈5r/2⌉` and its height `180 / 2 ^ ⌊5r/2⌋`:
dimensions shrink by alternating factors of 8 and 4 per character (each
bit, not each character, halves one dimension). -/
theorem C6_encode_decode (x y : ℚ) (r : Nat) (hx0 : -180 ≤ x) (hx1 : x ≤ 180)
    (hy0 : -90 ≤ y) (hy1 : y ≤ 90) (hr : r ≤ 16) :
    (ghtCellOf ⟨x, y⟩ r).isSome = true
    ∧ ∀ a : GhtArea, ghtCellOf ⟨x, y⟩ r = some a →
        (a.x.min ≤ x ∧ x ≤ a.x.max ∧ a.y.min ≤ y ∧ y ≤ a.y.max)
        ∧ (a.x.max - a.x.min) * 2 ^ ((5 * r + 1) / 2) = 360
        ∧ (a.y.max - a.y.min) * 2 ^ (5 * r / 2) = 180 := by
  have hhash : ght_hash_from_coordinate ⟨x, y⟩ r
      = some (toChars (encodeBits x y (5 * r) (-180) 180 (-90) 90 true)) := by
    rw [ght_hash_from_coordinate]
    exact if_pos ⟨hx0, hx1, hy0, hy1, hr⟩
  have hlen : (encodeBits x y (5 * r) (-180) 180 (-90) 90 true).length % 5 = 0 := by
    rw [encodeBits_length]
    omega
  have hcell : ghtCellOf ⟨x, y⟩ r
      = some (decodeBits (encodeBits x y (5 * r) (-180) 180 (-90) 90 true)
          (-180) 180 (-90) 90 true) := by
    rw [ghtCellOf, hhash, Option.some_bind, area_from_toChars _ hlen]
  refine ⟨by rw [hcell]; rfl, fun a ha => ?_⟩
  rw [hcell, Option.some.injEq] at ha
  subst ha
  have hd := decode_encode x y (5 * r) (-180) 180 (-90) 90 true hx0 hx1 hy0 hy1
  refine ⟨⟨hd.1, hd.2.1, hd.2.2.1, hd.2.2.2.1⟩, ?_, ?_⟩
  · have hx := hd.2.2.2.2.1
    rw [(lonCount_closed (5 * r)).1] at hx
    rw [hx]
    norm_num
  · have hy := hd.2.2.2.2.2
    simp only [Bool.not_true] at hy
    rw [(lonCount_closed (5 * r)).2] at hy
    rw [hy]
    norm_num

theorem C6_encode_decode_witness : (ghtCellOf ⟨0, 0⟩ 1).isSome = true :=
  (C6_encode_decode 0 0 1 (by norm_num) (by norm_num) (by norm_num) (by norm_num)
    (by norm_num)).1

/-- C6 (counterexample to the claim as stated): at the concrete coordinate
`(0, 0)`, one geohash character decodes to a 45-by-45 cell while two
characters decode to a cell of width `45/4` and height `45/8`; neither
dimension is half of the one-character cell's dimension, so the additional
resolution character does not halve the decoded cell's dimensions. -/
theorem C6_counterexample :
    ght_hash_from_coordinate ⟨0, 0⟩ 1 = some ['s']
    ∧ ght_hash_from_coordinate ⟨0, 0⟩ 2 = some ['s', '0']
    ∧ ght_area_from_hash ['s'] = some ⟨⟨0, 45⟩, ⟨0, 45⟩⟩
    ∧ ght_area_from_hash ['s', '0'] = some ⟨⟨0, 45 / 4⟩, ⟨0, 45 / 8⟩⟩
    ∧ ¬((45 / 4 - 0 : ℚ) = (45 - 0) / 2 ∧ (45 / 8 - 0 : ℚ) = (45 - 0) / 2) := by
  have e5 : encodeBits 0 0 5 (-180) 180 (-90) 90 true
      = [true, true, false, false, false] := by
    rw [encStepTLon 0 0 (-180) 180 (-90) 90 0 5 4 rfl (by norm_num) (by norm_num)]
    rw [encStepTLat 0 0 0 180 (-90) 90 0 4 3 rfl (by norm_num) (by norm_num)]
    rw [encStepFLon 0 0 0 180 0 90 90 3 2 rfl (by norm_num) (by norm_num)]
    rw [encStepFLat 0 0 0 90 0 90 45 2 1 rfl (by norm_num) (by norm_num)]
    rw [encStepFLon 0 0 0 90 0 45 45 1 0 rfl (by norm_num) (by norm_num)]
    rfl
  have e10 : encodeBits 0 0 10 (-180) 180 (-90) 90 true
      = [true, true, false, false, false, false, false, false, false, false] := by
    rw [encStepTLon 0 0 (-180) 180 (-90) 90 0 10 9 rfl (by norm_num) (by norm_num)]
    rw [encStepTLat 0 0 0 180 (-90) 90 0 9 8 rfl (by norm_num) (by norm_num)]
    rw [encStepFLon 0 0 0 180 0 90 90 8 7 rfl (by norm_num) (by norm_num)]
    rw [encStepFLat 0 0 0 90 0 90 45 7 6 rfl (by norm_num) (by norm_num)]
    rw [encStepFLon 0 0 0 90 0 45 45 6 5 rfl (by norm_num) (by norm_num)]
    rw [encStepFLat 0 0 0 45 0 45 (45 / 2) 5 4 rfl (by norm_num) (by norm_num)]
    rw [encStepFLon 0 0 0 45 0 (45 / 2) (45 / 2) 4 3 rfl (by norm_num) (by norm_num)]
    rw [encStepFLat 0 0 0 (45 / 2) 0 (45 / 2) (45 / 4) 3 2 rfl (by norm_num)
      (by norm_num)]
    rw [encStepFLon 0 0 0 (45 / 2) 0 (45 / 4) (45 / 4) 2 1 rfl (by norm_num)
      (by norm_num)]
    rw [encStepFLat 0 0 0 (45 / 4) 0 (45 / 4) (45 / 8) 1 0 rfl (by norm_num)
      (by norm_num)]
    rfl
  have hm1 : (['s'] : List Char).mapM charVal = some [24] := by decide
  have hm2 : (['s', '0'] : List Char).mapM charVal = some [24, 0] := by decide
  have hb1 : (([24] : List Nat).map char5).flatten
      = [true, true, false, false, false] := by decide
  have hb2 : (([24, 0] : List Nat).map char5).flatten
      = [true, true, false, false, false, false, false, false, false, false] := by
    decide
  refine ⟨?_, ?_, ?_, ?_, ?_⟩
  · rw [ght_hash_from_coordinate, if_pos (by norm_num)]
    show some (toChars (encodeBits 0 0 5 (-180) 180 (-90) 90 true)) = some ['s']
    rw [e5]
    decide
  · rw [ght_hash_from_coordinate, if_pos (by norm_num)]
    show some (toChars (encodeBits 0 0 10 (-180) 180 (-90) 90 true))
      = some ['s', '0']
    rw [e10]
    decide
  · rw [ght_area_from_hash, hm1, Option.map_some', hb1]
    rw [decodeBits_true_lon, decodeBits_true_lat, decodeBits_false_lon,
      decodeBits_false_lat, decodeBits_false_lon, decodeBits_nil]
    norm_num
  · rw [ght_area_from_hash, hm2, Option.map_some', hb2]
    rw [decodeBits_true_lon, decodeBits_true_lat, decodeBits_false_lon,
      decodeBits_false_lat, decodeBits_false_lon, decodeBits_false_lat,
      decodeBits_false_lon, decodeBits_false_lat, decodeBits_false_lon,
      decodeBits_false_lat, decodeBits_nil]
    norm_num
  · intro hcon
    have := hcon.1
    norm_num at this

theorem withHash_hash (n : GhtNode) (h : List Char) : (withHash n h).hash = h := rfl

theorem withHash_children (n : GhtNode) (h : List Char) :
    (withHash n h).children = n.children := rfl

theorem withChildren_hash (n : GhtNode) (cs : List GhtNode) :
    (withChildren n cs).hash = n.hash := rfl

theorem withChildren_children (n : GhtNode) (cs : List GhtNode) :
    (withChildren n cs).children = cs := rfl

theorem WFL_nil (d : Nat) : WFL d [] := by
  rw [WFL]
  trivial

theorem WFL_cons (d : Nat) (c : GhtNode) (cs : List GhtNode) :
    WFL d (c :: cs) ↔ WFN d c ∧ WFL d cs := by
  rw [WFL]

theorem WFN_eq (d : Nat) (n : GhtNode) :
    WFN d n ↔ (n.hash ≠ [] ∧ (n.children = [] → n.hash.length = d)
      ∧ (n.children ≠ [] → n.hash.length < d ∧ WFL (d - n.hash.length) n.children)) := by
  rw [WFN]

theorem listLeaves_nil : listLeaves [] = [] := by
  rw [listLeaves]

theorem listLeaves_cons (c : GhtNode) (cs : List GhtNode) :
    listLeaves (c :: cs) = nodeLeaves c ++ listLeaves cs := by
  rw [listLeaves]

theorem nodeLeaves_leaf (n : GhtNode) (h : n.children = []) :
    nodeLeaves n = [n.hash] := by
  cases n with
  | mk a b c d =>
    simp only [GhtNode.children] at h
    subst h
    rw [nodeLeaves]
    rfl

theorem nodeLeaves_internal (n : GhtNode) (h : n.children ≠ []) :
    nodeLeaves n = (listLeaves n.children).map (fun l => n.hash ++ l) := by
  cases n with
  | mk a b c d =>
    simp only [GhtNode.children] at h
    cases d with
    | nil => exact absurd rfl h
    | cons x xs =>
      rw [nodeLeaves]
      rfl

theorem count_leaf (n : GhtNode) (h : n.children = []) :
    ght_node_count_leaves n = 1 := by
  cases n with
  | mk a b c d =>
    simp only [GhtNode.children] at h
    subst h
    rw [ght_node_count_leaves]

theorem count_internal (n : GhtNode) (h : n.children ≠ []) :
    ght_node_count_leaves n = countLeavesList n.children := by
  cases n with
  | mk a b c d =>
    simp only [GhtNode.children] at h
    cases d with
    | nil => exact absurd rfl h
    | cons x xs =>
      rw [ght_node_count_leaves]
      rfl

theorem countList_nil : countLeavesList [] = 0 := by
  rw [countLeavesList]

theorem countList_cons (c : GhtNode) (cs : List GhtNode) :
    countLeavesList (c :: cs) = ght_node_count_leaves c + countLeavesList cs := by
  rw [countLeavesList]

theorem countList_eq_of_mem (l : List GhtNode)
    (hmem : ∀ y ∈ l, ght_node_count_leaves y = (nodeLeaves y).length) :
    countLeavesList l = (listLeaves l).length := by
  induction l with
  | nil => rw [countList_nil, listLeaves_nil]; rfl
  | cons x xs ihl =>
    rw [countList_cons, listLeaves_cons, List.length_append]
    rw [hmem x (List.mem_cons_self x xs),
      ihl (fun y hy => hmem y (List.mem_cons_of_mem x hy))]

/-- Leaf count equals the length of the leaf-hash list. -/
theorem count_eq_leaves_length :
    ∀ n : GhtNode, ght_node_count_leaves n = (nodeLeaves n).length := by
  refine GhtNode.strongInd _ ?_
  intro n ih
  by_cases hc : n.children = []
  · rw [count_leaf n hc, nodeLeaves_leaf n hc]
    rfl
  · rw [count_internal n hc, nodeLeaves_internal n hc, List.length_map]
    exact countList_eq_of_mem n.children ih

theorem insertChildren_nil (dup : GhtDuplicates) (inc : GhtNode) :
    ght_node_insert_children dup inc [] = [inc] := by
  rw [ght_node_insert_children.eq_def]

theorem insertChildren_child (dup : GhtDuplicates) (inc c : GhtNode)
    (rest : List GhtNode) (x bleaf : List Char)
    (h : ght_hash_leaf_parts c.hash inc.hash = (.GHT_CHILD, x, bleaf)) :
    ght_node_insert_children dup inc (c :: rest)
      = withChildren c
          (ght_node_insert_children dup (withHash inc bleaf) c.children) :: rest := by
  rw [ght_node_insert_children.eq_def]
  simp only [h]

theorem insertChildren_split (dup : GhtDuplicates) (inc c : GhtNode)
    (rest : List GhtNode) (aleaf bleaf : List Char)
    (h : ght_hash_leaf_parts c.hash inc.hash = (.GHT_SPLIT, aleaf, bleaf)) :
    ght_node_insert_children dup inc (c :: rest)
      = GhtNode.mk (c.hash.take (commonLen c.hash inc.hash)) 0 []
          [withHash c aleaf, withHash inc bleaf] :: rest := by
  rw [ght_node_insert_children.eq_def]
  simp only [h]

theorem insertChildren_none (dup : GhtDuplicates) (inc c : GhtNode)
    (rest : List GhtNode) (x y : List Char)
    (h : ght_hash_leaf_parts c.hash inc.hash = (.GHT_NONE, x, y)) :
    ght_node_insert_children dup inc (c :: rest)
      = c :: ght_node_insert_children dup inc rest := by
  rw [ght_node_insert_children.eq_def]
  simp only [h]

theorem insertChildren_ne_nil (dup : GhtDuplicates) (inc : GhtNode) :
    ∀ cs : List GhtNode, ght_node_insert_children dup inc cs ≠ [] := by
  intro cs
  cases cs with
  | nil => rw [insertChildren_nil]; exact List.cons_ne_nil inc []
  | cons c rest =>
    rcases h : ght_hash_leaf_parts c.hash inc.hash with ⟨m, al, bl⟩
    rw [ght_node_insert_children.eq_def]
    simp only [h]
    cases m
    · simp
    · simp
    · by_cases hdup : dup = GhtDuplicates.GHT_DUPES_NO <;> simp [hdup]
    · simp
    · simp

/-- Inserting a fresh full-depth leaf into a well-formed children list adds
exactly its hash to the leaf multiset and preserves well-formedness. -/
theorem insert_leaves_wf (dup : GhtDuplicates) :
    ∀ (N : Nat) (cs : List GhtNode) (inc : GhtNode) (d : Nat),
      sizeOf cs ≤ N →
      0 < d → WFL d cs → inc.children = [] → inc.hash.length = d →
      inc.hash ∉ listLeaves cs →
      (listLeaves (ght_node_insert_children dup inc cs)).Perm
        (inc.hash :: listLeaves cs)
      ∧ WFL d (ght_node_insert_children dup inc cs) := by
  intro N
  induction N with
  | zero =>
    intro cs inc d hsz _ _ _ _ _
    exfalso
    cases cs <;> simp only [List.nil.sizeOf_spec, List.cons.sizeOf_spec] at hsz <;> omega
  | succ N IH =>
    intro cs inc d hsz hd hwf hleaf hlen hfresh
    have hincne : inc.hash ≠ [] := by
      intro h
      rw [h] at hlen
      simp only [List.length_nil] at hlen
      omega
    cases cs with
    | nil =>
      rw [insertChildren_nil]
      constructor
      · rw [listLeaves_cons, listLeaves_nil, nodeLeaves_leaf inc hleaf]
        exact List.Perm.refl _
      · rw [WFL_cons]
        refine ⟨?_, WFL_nil d⟩
        rw [WFN_eq]
        exact ⟨hincne, fun _ => hlen, fun h => absurd hleaf h⟩
    | cons c rest =>
      have hwf' := (WFL_cons d c rest).mp hwf
      have hwfc := hwf'.1
      have hwfrest := hwf'.2
      have hwfcu := (WFN_eq d c).mp hwfc
      have hcne : c.hash ≠ [] := hwfcu.1
      have hfreshc : inc.hash ∉ nodeLeaves c := by
        intro hmem
        exact hfresh (by rw [listLeaves_cons]; exact List.mem_append.mpr (Or.inl hmem))
      have hfreshrest : inc.hash ∉ listLeaves rest := by
        intro hmem
        exact hfresh (by rw [listLeaves_cons]; exact List.mem_append.mpr (Or.inr hmem))
      have hclenle : c.hash.length ≤ d := by
        by_cases hcl : c.children = []
        · rw [hwfcu.2.1 hcl]
        · exact Nat.le_of_lt (hwfcu.2.2 hcl).1
      by_cases hsame : c.hash = inc.hash
      · exfalso
        by_cases hcl : c.children = []
        · apply hfreshc
          rw [nodeLeaves_leaf c hcl, hsame]
          exact List.mem_singleton.mpr rfl
        · have hlt := (hwfcu.2.2 hcl).1
          rw [hsame, hlen] at hlt
          omega
      · by_cases hchild : commonLen c.hash inc.hash = c.hash.length
        · -- CHILD: descend into c
          have hlp := lpChild c.hash inc.hash hcne hsame hchild
          have hlt : c.hash.length < d := by
            rcases Nat.lt_or_ge c.hash.length d with h | h
            · exact h
            · exfalso
              have h2 := commonLen_le_right c.hash inc.hash
              exact hsame (eq_of_commonLen_full c.hash inc.hash hchild (by omega))
          have hcint : c.children ≠ [] := by
            intro h
            have := hwfcu.2.1 h
            omega
          have hwfsub : WFL (d - c.hash.length) c.children := (hwfcu.2.2 hcint).2
          have hpre : c.hash = inc.hash.take (commonLen c.hash inc.hash) := by
            have h := commonLen_take_eq c.hash inc.hash
            rw [hchild, List.take_length] at h
            rw [hchild]
            exact h
          have happ : c.hash ++ inc.hash.drop (commonLen c.hash inc.hash)
              = inc.hash := by
            have h := List.take_append_drop (commonLen c.hash inc.hash) inc.hash
            rw [← hpre] at h
            exact h
          have hszc : sizeOf c.children ≤ N := by
            have h1 := sizeOf_children_lt c
            simp only [List.cons.sizeOf_spec] at hsz
            omega
          have hfresh2 : (withHash inc
              (inc.hash.drop (commonLen c.hash inc.hash))).hash
                ∉ listLeaves c.children := by
            rw [withHash_hash]
            intro hmem
            apply hfreshc
            rw [nodeLeaves_internal c hcint]
            exact List.mem_map.mpr ⟨_, hmem, happ⟩
          have hIH := IH c.children
            (withHash inc (inc.hash.drop (commonLen c.hash inc.hash)))
            (d - c.hash.length) hszc (by omega) hwfsub
            (by rw [withHash_children]; exact hleaf)
            (by rw [withHash_hash, List.length_drop, hchild, hlen])
            hfresh2
          rw [insertChildren_child dup inc c rest _ _ hlp]
          have hXne : ght_node_insert_children dup
              (withHash inc (inc.hash.drop (commonLen c.hash inc.hash)))
              c.children ≠ [] := insertChildren_ne_nil dup _ c.children
          constructor
          · rw [listLeaves_cons,
              nodeLeaves_internal _ (by rw [withChildren_children]; exact hXne),
              withChildren_children, withChildren_hash]
            have hp1 := hIH.1
            rw [withHash_hash] at hp1
            have hp2 := hp1.map (fun l => c.hash ++ l)
            rw [List.map_cons, happ] at hp2
            have hp3 := hp2.append_right (listLeaves rest)
            rw [listLeaves_cons, nodeLeaves_internal c hcint]
            exact hp3.trans (by rw [List.cons_append])
          · rw [WFL_cons]
            refine ⟨?_, hwfrest⟩
            rw [WFN_eq, withChildren_hash, withChildren_children]
            exact ⟨hcne, fun h => absurd h hXne, fun _ => ⟨hlt, hIH.2⟩⟩
        · by_cases hsplitb : commonLen c.hash inc.hash = inc.hash.length
          · exfalso
            have h1 := commonLen_le_left c.hash inc.hash
            omega
          · by_cases hpos : 0 < commonLen c.hash inc.hash
            · -- SPLIT: splice a fresh internal node with the shared prefix
              have hlp := lpSplitBoth c.hash inc.hash hcne hsame hchild hsplitb hpos
              have hnlt : commonLen c.hash inc.hash < c.hash.length :=
                Nat.lt_of_le_of_ne (commonLen_le_left _ _) hchild
              have hnltd : commonLen c.hash inc.hash < d := by
                have := commonLen_le_right c.hash inc.hash
                omega
              rw [insertChildren_split dup inc c rest _ _ hlp]
              have htake : c.hash.take (commonLen c.hash inc.hash)
                  = inc.hash.take (commonLen c.hash inc.hash) :=
                commonLen_take_eq c.hash inc.hash
              have happinc : c.hash.take (commonLen c.hash inc.hash)
                  ++ inc.hash.drop (commonLen c.hash inc.hash) = inc.hash := by
                have h := List.take_append_drop (commonLen c.hash inc.hash) inc.hash
                rw [← htake] at h
                exact h
              have hsne : (GhtNode.mk
                  (c.hash.take (commonLen c.hash inc.hash)) 0 []
                  [withHash c (c.hash.drop (commonLen c.hash inc.hash)),
                   withHash inc (inc.hash.drop (commonLen c.hash inc.hash))]
                  : GhtNode).children ≠ [] := by
                simp [GhtNode.children]
              have hsleaves : nodeLeaves (GhtNode.mk
                  (c.hash.take (commonLen c.hash inc.hash)) 0 []
                  [withHash c (c.hash.drop (commonLen c.hash inc.hash)),
                   withHash inc (inc.hash.drop (commonLen c.hash inc.hash))])
                  = nodeLeaves c ++ [inc.hash] := by
                rw [nodeLeaves_internal _ hsne]
                show (listLeaves
                    [withHash c (c.hash.drop (commonLen c.hash inc.hash)),
                     withHash inc (inc.hash.drop (commonLen c.hash inc.hash))]).map
                    (fun l => c.hash.take (commonLen c.hash inc.hash) ++ l)
                  = nodeLeaves c ++ [inc.hash]
                rw [listLeaves_cons, listLeaves_cons, listLeaves_nil,
                  nodeLeaves_leaf
                    (withHash inc (inc.hash.drop (commonLen c.hash inc.hash)))
                    (by rw [withHash_children]; exact hleaf),
                  withHash_hash, List.append_nil, List.map_append]
                congr 1
                · -- prefixed leaves of the truncated c equal the leaves of c
                  by_cases hcl : c.children = []
                  · rw [nodeLeaves_leaf _ (by rw [withHash_children]; exact hcl),
                      withHash_hash, nodeLeaves_leaf c hcl]
                    simp only [List.map_cons, List.map_nil]
                    rw [List.take_append_drop]
                  · rw [nodeLeaves_internal _
                        (by rw [withHash_children]; exact hcl),
                      withHash_children, withHash_hash,
                      nodeLeaves_internal c hcl, List.map_map]
                    apply List.map_congr_left
                    intro l _
                    show c.hash.take (commonLen c.hash inc.hash)
                        ++ (c.hash.drop (commonLen c.hash inc.hash) ++ l)
                      = c.hash ++ l
                    rw [← List.append_assoc, List.take_append_drop]
                · simp only [List.map_cons, List.map_nil, happinc]
              constructor
              · rw [listLeaves_cons, hsleaves, listLeaves_cons,
                  List.append_assoc]
                exact List.perm_middle
              · rw [WFL_cons]
                constructor
                · rw [WFN_eq]
                  simp only [GhtNode.hash_mk, GhtNode.children_mk]
                  refine ⟨?_, ?_, ?_⟩
                  · intro h
                    have := congrArg List.length h
                    rw [List.length_take] at this
                    simp only [List.length_nil] at this
                    omega
                  · intro h
                    simp at h
                  · intro _
                    have hlentake : (c.hash.take
                        (commonLen c.hash inc.hash)).length
                        = commonLen c.hash inc.hash := by
                      rw [List.length_take]
                      omega
                    rw [hlentake]
                    refine ⟨hnltd, ?_⟩
                    rw [WFL_cons, WFL_cons]
                    refine ⟨?_, ?_, WFL_nil _⟩
                    · rw [WFN_eq, withHash_hash, withHash_children]
                      refine ⟨?_, ?_, ?_⟩
                      · intro h
                        have := congrArg List.length h
                        rw [List.length_drop] at this
                        simp only [List.length_nil] at this
                        omega
                      · intro hcl
                        rw [List.length_drop, hwfcu.2.1 hcl]
                      · intro hcl
                        have hlc := (hwfcu.2.2 hcl).1
                        rw [List.length_drop]
                        refine ⟨by omega, ?_⟩
                        have harith : d - commonLen c.hash inc.hash
                            - (c.hash.length - commonLen c.hash inc.hash)
                            = d - c.hash.length := by omega
                        rw [harith]
                        exact (hwfcu.2.2 hcl).2
                    · rw [WFN_eq, withHash_hash, withHash_children]
                      refine ⟨?_, ?_, ?_⟩
                      · intro h
                        have := congrArg List.length h
                        rw [List.length_drop, hlen] at this
                        simp only [List.length_nil] at this
                        omega
                      · intro _
                        rw [List.length_drop, hlen]
                      · intro h
                        exact absurd hleaf h
                · exact hwfrest
            · -- NONE: keep scanning
              have hn0 : commonLen c.hash inc.hash = 0 := by omega
              have hlp := lpNone c.hash inc.hash hcne hincne hn0
              rw [insertChildren_none dup inc c rest _ _ hlp]
              have hszrest : sizeOf rest ≤ N := by
                simp only [List.cons.sizeOf_spec] at hsz
                omega
              have hIH := IH rest inc d hszrest hd hwfrest hleaf hlen hfreshrest
              constructor
              · rw [listLeaves_cons, listLeaves_cons]
                have hp := hIH.1.append_left (nodeLeaves c)
                exact hp.trans List.perm_middle
              · rw [WFL_cons]
                exact ⟨hwfc, hIH.2⟩

theorem withChildren_withChildren (r : GhtNode) (x y : List GhtNode) :
    withChildren (withChildren r x) y = withChildren r y := rfl

theorem fold_insert_children (dup : GhtDuplicates) (ns : List GhtNode) :
    ∀ r : GhtNode,
      ns.foldl (fun t n => ght_node_insert_node t n dup) r
        = withChildren r
            (ns.foldl (fun cs n => ght_node_insert_children dup n cs)
              r.children) := by
  induction ns with
  | nil =>
    intro r
    rw [List.foldl_nil, List.foldl_nil]
    cases r
    rfl
  | cons n ns ih =>
    intro r
    rw [List.foldl_cons, List.foldl_cons, ih]
    rfl

theorem foldChildren_ne_nil (dup : GhtDuplicates) :
    ∀ (ns : List GhtNode) (cs : List GhtNode), ns ≠ [] →
      ns.foldl (fun cs n => ght_node_insert_children dup n cs) cs ≠ [] := by
  intro ns
  induction ns with
  | nil => intro cs h; exact absurd rfl h
  | cons n ns ih =>
    intro cs _
    rw [List.foldl_cons]
    cases hns : ns with
    | nil =>
      rw [List.foldl_nil]
      exact insertChildren_ne_nil dup n cs
    | cons m ms =>
      rw [← hns]
      exact ih _ (by rw [hns]; exact List.cons_ne_nil m ms)

theorem fold_leaves (dup : GhtDuplicates) :
    ∀ (ns : List GhtNode) (cs : List GhtNode) (d : Nat),
      0 < d → WFL d cs →
      (∀ n ∈ ns, n.children = [] ∧ n.hash.length = d) →
      (ns.map GhtNode.hash).Nodup →
      (∀ n ∈ ns, n.hash ∉ listLeaves cs) →
      (listLeaves (ns.foldl (fun cs n => ght_node_insert_children dup n cs) cs)).Perm
        (listLeaves cs ++ ns.map GhtNode.hash)
      ∧ WFL d (ns.foldl (fun cs n => ght_node_insert_children dup n cs) cs) := by
  intro ns
  induction ns with
  | nil =>
    intro cs d _ hwf _ _ _
    rw [List.foldl_nil, List.map_nil, List.append_nil]
    exact ⟨List.Perm.refl _, hwf⟩
  | cons n ns ih =>
    intro cs d hd hwf hprops hnd hfresh
    have hn := hprops n (List.mem_cons_self n ns)
    have hstep := insert_leaves_wf dup (sizeOf cs) cs n d le_rfl hd hwf hn.1 hn.2
      (hfresh n (List.mem_cons_self n ns))
    rw [List.foldl_cons]
    have hnd' : (ns.map GhtNode.hash).Nodup := by
      rw [List.map_cons] at hnd
      exact hnd.of_cons
    have hhead : n.hash ∉ ns.map GhtNode.hash := by
      rw [List.map_cons] at hnd
      exact (List.nodup_cons.mp hnd).1
    have hfresh' : ∀ m ∈ ns, m.hash ∉
        listLeaves (ght_node_insert_children dup n cs) := by
      intro m hm hmem
      have h2 := (hstep.1.mem_iff).mp hmem
      rcases List.mem_cons.mp h2 with h3 | h3
      · exact hhead (h3 ▸ List.mem_map_of_mem GhtNode.hash hm)
      · exact hfresh m (List.mem_cons_of_mem n hm) h3
    have hrec := ih (ght_node_insert_children dup n cs) d hd hstep.2
      (fun m hm => hprops m (List.mem_cons_of_mem n hm)) hnd' hfresh'
    refine ⟨?_, hrec.2⟩
    refine hrec.1.trans ?_
    have h4 := hstep.1.append_right (ns.map GhtNode.hash)
    refine h4.trans ?_
    rw [List.map_cons, List.cons_append]
    exact List.perm_middle.symm

/-- C2: starting from a root node carrying the empty hash, inserting via
`ght_node_insert_node` a non-empty batch of leaf nodes whose full-resolution
hashes all have the common resolution length `d` and are pairwise distinct
makes `ght_node_count_leaves` on the root report exactly the number of
inserted nodes, under either duplicates policy. -/
theorem C2_insert_count (dup : GhtDuplicates) (ns : List GhtNode) (d : Nat)
    (hd : 0 < d) (hns : ∀ n ∈ ns, n.children = [] ∧ n.hash.length = d)
    (hnd : (ns.map GhtNode.hash).Nodup) (hne : ns ≠ []) :
    ght_node_count_leaves
      (ns.foldl (fun t n => ght_node_insert_node t n dup) makeRoot)
      = ns.length := by
  rw [fold_insert_children]
  have hcroot : makeRoot.children = [] := rfl
  rw [hcroot]
  have hf := fold_leaves dup ns [] d hd (WFL_nil d) hns hnd
    (by intro n _; rw [listLeaves_nil]; exact List.not_mem_nil _)
  have hXne : ns.foldl (fun cs n => ght_node_insert_children dup n cs) [] ≠ [] :=
    foldChildren_ne_nil dup ns [] hne
  rw [count_eq_leaves_length,
    nodeLeaves_internal _ (by rw [withChildren_children]; exact hXne),
    withChildren_children, withChildren_hash]
  have hmr : makeRoot.hash = [] := rfl
  rw [hmr]
  simp only [List.nil_append, List.map_id']
  rw [hf.1.length_eq]
  rw [listLeaves_nil, List.nil_append, List.length_map]

theorem withChildren_attributes (n : GhtNode) (cs : List GhtNode) :
    (withChildren n cs).attributes = n.attributes := rfl

theorem getByDim_none_of_count (dm : Nat) :
    ∀ attrs : List GhtAttribute, dimCount dm attrs = 0 → getByDim attrs dm = none := by
  intro attrs
  induction attrs with
  | nil => intro _; rfl
  | cons a as ih =>
    intro h
    rw [dimCount, List.countP_cons] at h
    cases hb : (a.dim == dm) with
    | true =>
      rw [hb, if_pos rfl] at h
      omega
    | false =>
      rw [hb] at h
      have h2 : dimCount dm as = 0 := by
        rw [if_neg (by simp)] at h
        rw [dimCount]
        omega
      have h3 := ih h2
      rw [getByDim] at h3 ⊢
      rw [List.find?]
      rw [hb]
      exact h3

theorem getByDim_some_count (dm : Nat) :
    ∀ (attrs : List GhtAttribute) (a : GhtAttribute),
      getByDim attrs dm = some a → 1 ≤ dimCount dm attrs := by
  intro attrs
  induction attrs with
  | nil => intro a h; exact absurd h (by rw [getByDim]; simp)
  | cons x xs ih =>
    intro a h
    rw [dimCount, List.countP_cons]
    cases hb : (x.dim == dm) with
    | true =>
      rw [if_pos rfl]
      omega
    | false =>
      rw [getByDim, List.find?, hb] at h
      have h2 := ih a (by rw [getByDim]; exact h)
      rw [dimCount] at h2
      rw [if_neg (by simp [hb])]
      omega

theorem leavesObsList_nil (schema : GhtSchema) (dm : Nat) (acc : Option ℚ) :
    leavesObsList schema dm acc [] = [] := by
  rw [leavesObsList]

theorem leavesObsList_cons (schema : GhtSchema) (dm : Nat) (acc : Option ℚ)
    (c : GhtNode) (cs : List GhtNode) :
    leavesObsList schema dm acc (c :: cs)
      = leavesObs schema dm acc c ++ leavesObsList schema dm acc cs := by
  rw [leavesObsList]

theorem leavesObs_leaf (schema : GhtSchema) (dm : Nat) (acc : Option ℚ)
    (n : GhtNode) (h : n.children = []) :
    leavesObs schema dm acc n
      = [(n.hash, obsStep schema dm acc n.attributes)] := by
  rw [leavesObs, h]
  rfl

theorem leavesObs_internal (schema : GhtSchema) (dm : Nat) (acc : Option ℚ)
    (n : GhtNode) (h : n.children ≠ []) :
    leavesObs schema dm acc n
      = (leavesObsList schema dm (obsStep schema dm acc n.attributes)
          n.children).map (fun p => (n.hash ++ p.1, p.2)) := by
  rw [leavesObs]
  rcases hc : n.children with _ | ⟨c, cs⟩
  · exact absurd hc h
  · rfl

theorem pathMaxList_nil (dm : Nat) : pathMaxList dm [] = 0 := by
  rw [pathMaxList]

theorem pathMaxList_cons (dm : Nat) (c : GhtNode) (cs : List GhtNode) :
    pathMaxList dm (c :: cs) = max (pathMax dm c) (pathMaxList dm cs) := by
  rw [pathMaxList]

theorem pathMax_le_of_mem (dm : Nat) :
    ∀ (l : List GhtNode) (c : GhtNode), c ∈ l → pathMax dm c ≤ pathMaxList dm l := by
  intro l
  induction l with
  | nil => intro c h; exact absurd h (List.not_mem_nil c)
  | cons x xs ih =>
    intro c h
    rw [pathMaxList_cons]
    rcases List.mem_cons.mp h with h | h
    · subst h
      exact Nat.le_max_left _ _
    · exact le_trans (ih c h) (Nat.le_max_right _ _)

theorem pathMaxList_zero_mem (dm : Nat) (l : List GhtNode)
    (h : pathMaxList dm l = 0) : ∀ c ∈ l, pathMax dm c = 0 := by
  intro c hc
  have := pathMax_le_of_mem dm l c hc
  omega

theorem filterChildren_nil (schema : GhtSchema) (f : GhtFilter) :
    filterChildren schema f [] = [] := by
  rw [filterChildren]

theorem filterChildren_cons (schema : GhtSchema) (f : GhtFilter) (c : GhtNode)
    (cs : List GhtNode) :
    filterChildren schema f (c :: cs)
      = match ght_node_filter_by_attribute schema f c with
        | none => filterChildren schema f cs
        | some c2 => c2 :: filterChildren schema f cs := by
  rw [filterChildren]

theorem filter_attr (schema : GhtSchema) (f : GhtFilter) (n : GhtNode)
    (a : GhtAttribute) (ha : getByDim n.attributes f.dim = some a) :
    ght_node_filter_by_attribute schema f n
      = if ght_filter_passes f (ght_attribute_get_value schema a) then some n
        else none := by
  rw [ght_node_filter_by_attribute, ha]

theorem filter_noattr (schema : GhtSchema) (f : GhtFilter) (n : GhtNode)
    (ha : getByDim n.attributes f.dim = none) :
    ght_node_filter_by_attribute schema f n
      = match filterChildren schema f n.children with
        | [] => none
        | c :: cs => some (withChildren n (c :: cs)) := by
  rw [ght_node_filter_by_attribute, ha]

theorem leavesObs_zero (schema : GhtSchema) (dm : Nat) :
    ∀ n : GhtNode, pathMax dm n = 0 →
      ∀ acc, leavesObs schema dm acc n = (nodeLeaves n).map (fun h => (h, acc)) := by
  refine GhtNode.strongInd _ ?_
  intro n ih hz acc
  rw [pathMax] at hz
  have hcnt : dimCount dm n.attributes = 0 := by omega
  have hlz : pathMaxList dm n.children = 0 := by omega
  have hobs : obsStep schema dm acc n.attributes = acc := by
    rw [obsStep, getByDim_none_of_count dm n.attributes hcnt]
  by_cases hcl : n.children = []
  · rw [leavesObs_leaf schema dm acc n hcl, hobs, nodeLeaves_leaf n hcl]
    rfl
  · rw [leavesObs_internal schema dm acc n hcl, hobs,
      nodeLeaves_internal n hcl]
    have hlist : ∀ l : List GhtNode,
        (∀ c ∈ l, leavesObs schema dm acc c = (nodeLeaves c).map (fun h => (h, acc))) →
        leavesObsList schema dm acc l = (listLeaves l).map (fun h => (h, acc)) := by
      intro l
      induction l with
      | nil => intro _; rw [leavesObsList_nil, listLeaves_nil]; rfl
      | cons x xs ihl =>
        intro hmem
        rw [leavesObsList_cons, listLeaves_cons, List.map_append,
          hmem x (List.mem_cons_self x xs),
          ihl (fun y hy => hmem y (List.mem_cons_of_mem x hy))]
    rw [hlist n.children
      (fun c hc => ih c hc (pathMaxList_zero_mem dm n.children hlz c hc) acc)]
    rw [List.map_map, List.map_map]
    rfl

theorem leavesObs_attr (schema : GhtSchema) (dm : Nat) (n : GhtNode)
    (a : GhtAttribute) (ha : getByDim n.attributes dm = some a)
    (hz : pathMaxList dm n.children = 0) :
    leavesObs schema dm none n
      = (nodeLeaves n).map
          (fun h => (h, some (ght_attribute_get_value schema a))) := by
  have hobs : obsStep schema dm (none : Option ℚ) n.attributes
      = some (ght_attribute_get_value schema a) := by
    rw [obsStep, ha]
  by_cases hcl : n.children = []
  · rw [leavesObs_leaf schema dm none n hcl, hobs, nodeLeaves_leaf n hcl]
    rfl
  · rw [leavesObs_internal schema dm none n hcl, hobs,
      nodeLeaves_internal n hcl]
    have hlist : ∀ l : List GhtNode, (∀ c ∈ l, pathMax dm c = 0) →
        leavesObsList schema dm (some (ght_attribute_get_value schema a)) l
          = (listLeaves l).map
              (fun h => (h, some (ght_attribute_get_value schema a))) := by
      intro l hmem
      induction l with
      | nil => rw [leavesObsList_nil, listLeaves_nil]; rfl
      | cons x xs ihl =>
        rw [leavesObsList_cons, listLeaves_cons, List.map_append,
          leavesObs_zero schema dm x (hmem x (List.mem_cons_self x xs)) _,
          ihl (fun y hy => hmem y (List.mem_cons_of_mem x hy))]
    rw [hlist n.children (pathMaxList_zero_mem dm n.children hz)]
    rw [List.map_map, List.map_map]
    rfl

theorem filterChildren_obs (schema : GhtSchema) (f : GhtFilter) :
    ∀ l : List GhtNode,
      (∀ c ∈ l, optLeavesObs schema f.dim (ght_node_filter_by_attribute schema f c)
          = (leavesObs schema f.dim none c).filter (fun p => keepOpt f p.2)) →
      leavesObsList schema f.dim none (filterChildren schema f l)
        = (leavesObsList schema f.dim none l).filter (fun p => keepOpt f p.2) := by
  intro l
  induction l with
  | nil =>
    intro _
    rw [filterChildren_nil, leavesObsList_nil]
    rfl
  | cons c cs ihl =>
    intro hmem
    have hc := hmem c (List.mem_cons_self c cs)
    have hrest := ihl (fun y hy => hmem y (List.mem_cons_of_mem c hy))
    rw [filterChildren_cons]
    rcases hf : ght_node_filter_by_attribute schema f c with _ | c2
    · rw [hf] at hc
      rw [optLeavesObs] at hc
      rw [leavesObsList_cons, List.filter_append, ← hc, List.nil_append]
      exact hrest
    · rw [hf] at hc
      rw [optLeavesObs] at hc
      rw [leavesObsList_cons, leavesObsList_cons, List.filter_append, ← hc,
        hrest]

/-- C5: the leaves of the tree produced by `ght_node_filter_by_attribute` are
exactly the leaves of the input whose observed value for the filter's
dimension (values compacted onto ancestors counted as attached to the leaf)
satisfies the filter's predicate — every produced leaf is such a leaf of the
input, and no such leaf of the input is missing.  The hypothesis states the
compaction invariant: the filter's dimension occurs at most once on each
root-to-leaf path. -/
theorem C5_filter (schema : GhtSchema) (f : GhtFilter) :
    ∀ root : GhtNode, pathMax f.dim root ≤ 1 →
      optLeavesObs schema f.dim (ght_node_filter_by_attribute schema f root)
        = (leavesObs schema f.dim none root).filter (fun p => keepOpt f p.2) := by
  refine GhtNode.strongInd _ ?_
  intro n ih hpm
  rcases ha : getByDim n.attributes f.dim with _ | a
  · have hobs : obsStep schema f.dim (none : Option ℚ) n.attributes = none := by
      rw [obsStep, ha]
    rw [filter_noattr schema f n ha]
    have hsub : ∀ c ∈ n.children,
        optLeavesObs schema f.dim (ght_node_filter_by_attribute schema f c)
          = (leavesObs schema f.dim none c).filter (fun p => keepOpt f p.2) := by
      intro c hc
      refine ih c hc (le_trans (pathMax_le_of_mem f.dim n.children c hc) ?_)
      rw [pathMax] at hpm
      omega
    have hfl := filterChildren_obs schema f n.children hsub
    by_cases hcl : n.children = []
    · rw [hcl, filterChildren_nil]
      rw [leavesObs_leaf schema f.dim none n hcl, hobs]
      rw [optLeavesObs]
      rw [List.filter_cons]
      simp [keepOpt]
    · rcases hfc : filterChildren schema f n.children with _ | ⟨c2, cs2⟩
      · rw [hfc] at hfl
        rw [leavesObsList_nil] at hfl
        rw [leavesObs_internal schema f.dim none n hcl, hobs]
        rw [optLeavesObs]
        rw [List.filter_map]
        rw [show ((fun p : List Char × Option ℚ => keepOpt f p.2)
            ∘ (fun p : List Char × Option ℚ => (n.hash ++ p.1, p.2)))
            = (fun p : List Char × Option ℚ => keepOpt f p.2) from rfl]
        rw [← hfl]
        rfl
      · rw [hfc] at hfl
        rw [optLeavesObs]
        have hc2 : (withChildren n (c2 :: cs2)).children ≠ [] := by
          rw [withChildren_children]
          exact List.cons_ne_nil c2 cs2
        rw [leavesObs_internal schema f.dim none (withChildren n (c2 :: cs2)) hc2,
          withChildren_children, withChildren_attributes, withChildren_hash, hobs]
        rw [hfl]
        rw [leavesObs_internal schema f.dim none n hcl, hobs]
        rw [List.filter_map]
        rw [show ((fun p : List Char × Option ℚ => keepOpt f p.2)
            ∘ (fun p : List Char × Option ℚ => (n.hash ++ p.1, p.2)))
            = (fun p : List Char × Option ℚ => keepOpt f p.2) from rfl]
  · rw [filter_attr schema f n a ha]
    have hcount := getByDim_some_count f.dim n.attributes a ha
    have hzero : pathMaxList f.dim n.children = 0 := by
      rw [pathMax] at hpm
      omega
    have hobs := leavesObs_attr schema f.dim n a ha hzero
    by_cases hp : ght_filter_passes f (ght_attribute_get_value schema a) = true
    · rw [if_pos hp]
      rw [optLeavesObs, hobs]
      symm
      rw [List.filter_eq_self]
      intro p hp2
      rcases List.mem_map.mp hp2 with ⟨h, _, rfl⟩
      simpa [keepOpt] using hp
    · rw [if_neg hp]
      rw [optLeavesObs, hobs]
      symm
      rw [List.filter_eq_nil_iff]
      intro p hp2
      rcases List.mem_map.mp hp2 with ⟨h, _, rfl⟩
      simp only [keepOpt]
      intro hk
      exact hp hk

theorem C5_filter_witness :
    optLeavesObs [] 2
      (ght_node_filter_by_attribute []
        (GhtFilter.mk (GhtRange.mk 1 1) GhtFilterMode.GHT_GREATER_THAN 2)
        (GhtNode.mk [] 0 []
          [GhtNode.mk ['a'] 0 [GhtAttribute.mk 2 7] [],
           GhtNode.mk ['b'] 0 [GhtAttribute.mk 2 0] []]))
      = (leavesObs [] 2 none
          (GhtNode.mk [] 0 []
            [GhtNode.mk ['a'] 0 [GhtAttribute.mk 2 7] [],
             GhtNode.mk ['b'] 0 [GhtAttribute.mk 2 0] []])).filter
          (fun p => keepOpt
            (GhtFilter.mk (GhtRange.mk 1 1) GhtFilterMode.GHT_GREATER_THAN 2)
            p.2) := by
  refine C5_filter []
    (GhtFilter.mk (GhtRange.mk 1 1) GhtFilterMode.GHT_GREATER_THAN 2) _ ?_
  simp [pathMax, pathMaxList, dimCount, GhtNode.attributes_mk,
    GhtNode.children_mk]

theorem C2_insert_count_witness :
    ght_node_count_leaves
      (([GhtNode.mk ['a'] 0 [] [], GhtNode.mk ['b'] 0 [] []]).foldl
        (fun t n => ght_node_insert_node t n GhtDuplicates.GHT_DUPES_NO)
        makeRoot) = 2 := by
  refine C2_insert_count GhtDuplicates.GHT_DUPES_NO _ 1 (by omega) ?_ (by decide)
    (by simp)
  intro n hn
  fin_cases hn <;> exact ⟨rfl, rfl⟩

theorem withAttrs_hash (n : GhtNode) (as : List GhtAttribute) :
    (withAttrs n as).hash = n.hash := rfl

theorem withAttrs_children (n : GhtNode) (as : List GhtAttribute) :
    (withAttrs n as).children = n.children := rfl

theorem withAttrs_attributes (n : GhtNode) (as : List GhtAttribute) :
    (withAttrs n as).attributes = as := rfl

theorem stripTop_hash (d : Nat) (n : GhtNode) : (stripTop d n).hash = n.hash := rfl

theorem stripTop_children (d : Nat) (n : GhtNode) :
    (stripTop d n).children = n.children := rfl

theorem stripTop_attributes (d : Nat) (n : GhtNode) :
    (stripTop d n).attributes = removeAttr d n.attributes := rfl

theorem compactList_nil (d : Nat) : compactList d [] = [] := by
  rw [compactList]

theorem compactList_cons (d : Nat) (c : GhtNode) (cs : List GhtNode) :
    compactList d (c :: cs)
      = ght_node_compact_attribute d c :: compactList d cs := by
  rw [compactList]

theorem compactList_length (d : Nat) :
    ∀ l : List GhtNode, (compactList d l).length = l.length := by
  intro l
  induction l with
  | nil => rw [compactList_nil]; rfl
  | cons c cs ih => rw [compactList_cons, List.length_cons, List.length_cons, ih]

theorem compact_leaf (d : Nat) (n : GhtNode) (h : n.children = []) :
    ght_node_compact_attribute d n
      = (n, (getByDim n.attributes d).map GhtAttribute.val) := by
  rw [ght_node_compact_attribute, h]
  rfl

theorem compact_agree (d : Nat) (n : GhtNode) (v : Int) (h : n.children ≠ [])
    (hag : allAgree ((compactList d n.children).map (fun p => p.2)) = some v) :
    ght_node_compact_attribute d n
      = (GhtNode.mk n.hash n.ghtFlag (GhtAttribute.mk d v :: n.attributes)
          ((compactList d n.children).map (fun p => stripTop d p.1)), some v) := by
  rcases hc : n.children with _ | ⟨c, cs⟩
  · exact absurd hc h
  · rw [hc] at hag
    rw [ght_node_compact_attribute, hc]
    simp only [List.isEmpty_cons, Bool.false_eq_true, if_false, hag]

theorem compact_none (d : Nat) (n : GhtNode) (h : n.children ≠ [])
    (hag : allAgree ((compactList d n.children).map (fun p => p.2)) = none) :
    ght_node_compact_attribute d n
      = (GhtNode.mk n.hash n.ghtFlag n.attributes
          ((compactList d n.children).map (fun p => p.1)), none) := by
  rcases hc : n.children with _ | ⟨c, cs⟩
  · exact absurd hc h
  · rw [hc] at hag
    rw [ght_node_compact_attribute, hc]
    simp only [List.isEmpty_cons, Bool.false_eq_true, if_false, hag]

theorem compactList_congr (d : Nat) (g : GhtNode → Option Int) :
    ∀ l : List GhtNode,
      (∀ c ∈ l, ght_node_compact_attribute d c = (c, g c)) →
      compactList d l = l.map (fun c => (c, g c)) := by
  intro l
  induction l with
  | nil => intro _; rw [compactList_nil, List.map_nil]
  | cons c cs ih =>
    intro h
    rw [compactList_cons, List.map_cons, h c (List.mem_cons_self c cs),
      ih (fun y hy => h y (List.mem_cons_of_mem c hy))]

theorem mergeAgree_none_left (o : Option Int) : mergeAgree none o = none := by
  rcases o with _ | v <;> rfl

theorem mergeAgree_none_right (o : Option Int) : mergeAgree o none = none := by
  rcases o with _ | v <;> rfl

theorem mergeAgree_some (v w : Int) :
    mergeAgree (some v) (some w) = if v = w then some v else none := rfl

theorem allAgree_some_mem :
    ∀ (l : List (Option Int)) (v : Int), allAgree l = some v →
      ∀ o ∈ l, o = some v := by
  intro l
  induction l with
  | nil => intro v h; rw [allAgree] at h; exact absurd h (by simp)
  | cons o rest ih =>
    intro v h o2 ho2
    cases rest with
    | nil =>
      rw [allAgree] at h
      rcases List.mem_singleton.mp ho2 with rfl
      exact h
    | cons o3 rest2 =>
      rw [allAgree] at h
      rcases o with _ | v1
      · rw [mergeAgree_none_left] at h
        exact absurd h (by simp)
      · rcases hrec : allAgree (o3 :: rest2) with _ | w
        · rw [hrec, mergeAgree_none_right] at h
          exact absurd h (by simp)
        · rw [hrec, mergeAgree_some] at h
          by_cases hvw : v1 = w
          · rw [if_pos hvw] at h
            have hv1 : v1 = v := by
              simpa using h
            rcases List.mem_cons.mp ho2 with h3 | h3
            · rw [h3, hv1]
            · have h4 := ih w hrec o2 h3
              rw [h4, ← hvw, hv1]
          · rw [if_neg hvw] at h
            exact absurd h (by simp)

theorem allAgree_of_all :
    ∀ (l : List (Option Int)) (v : Int), l ≠ [] → (∀ o ∈ l, o = some v) →
      allAgree l = some v := by
  intro l
  induction l with
  | nil => intro v h _; exact absurd rfl h
  | cons o rest ih =>
    intro v _ hall
    cases rest with
    | nil =>
      rw [allAgree]
      exact hall o (List.mem_cons_self o [])
    | cons o3 rest2 =>
      rw [allAgree]
      rw [hall o (List.mem_cons_self o _),
        ih v (List.cons_ne_nil o3 rest2)
          (fun x hx => hall x (List.mem_cons_of_mem o hx))]
      rw [mergeAgree_some]
      simp

theorem allAgree_all_none :
    ∀ l : List (Option Int), (∀ o ∈ l, o = none) → allAgree l = none := by
  intro l
  induction l with
  | nil => intro _; rw [allAgree]
  | cons o rest ih =>
    intro hall
    cases rest with
    | nil =>
      rw [allAgree]
      exact hall o (List.mem_cons_self o [])
    | cons o3 rest2 =>
      rw [allAgree]
      rw [hall o (List.mem_cons_self o _), mergeAgree_none_left]

theorem removeAttr_head (d : Nat) (v : Int) (as : List GhtAttribute) :
    removeAttr d (GhtAttribute.mk d v :: as) = as := by
  rw [removeAttr]
  simp

theorem getByDim_none_of_not_mem (d : Nat) (as : List GhtAttribute)
    (h : d ∉ as.map GhtAttribute.dim) : getByDim as d = none := by
  apply getByDim_none_of_count
  rw [dimCount]
  rw [List.countP_eq_zero]
  intro a ha
  simp only [beq_iff_eq]
  intro hcon
  exact h (hcon ▸ List.mem_map_of_mem GhtAttribute.dim ha)

theorem getByDim_cons_skip (dd : Nat) (a : GhtAttribute)
    (as : List GhtAttribute) (hb : (a.dim == dd) = false) :
    getByDim (a :: as) dd = getByDim as dd := by
  rw [getByDim, getByDim, List.find?, hb]

theorem getByDim_cons_hit (dd : Nat) (a : GhtAttribute)
    (as : List GhtAttribute) (hb : (a.dim == dd) = true) :
    getByDim (a :: as) dd = some a := by
  rw [getByDim, List.find?, hb]

theorem getByDim_removeAttr_none (d : Nat) :
    ∀ as : List GhtAttribute, (as.map GhtAttribute.dim).Nodup →
      getByDim (removeAttr d as) d = none := by
  intro as
  induction as with
  | nil => intro _; rfl
  | cons a as ih =>
    intro hnd
    rw [List.map_cons, List.nodup_cons] at hnd
    rw [removeAttr]
    cases hb : (a.dim == d) with
    | true =>
      rw [if_pos rfl]
      have had : a.dim = d := beq_iff_eq.mp hb
      exact getByDim_none_of_not_mem d as (had ▸ hnd.1)
    | false =>
      rw [if_neg (by simp)]
      rw [getByDim_cons_skip d a _ hb]
      exact ih hnd.2

theorem getByDim_removeAttr_other (d e : Nat) (hne : d ≠ e) :
    ∀ as : List GhtAttribute, getByDim (removeAttr e as) d = getByDim as d := by
  intro as
  induction as with
  | nil => rfl
  | cons a as ih =>
    rw [removeAttr]
    cases hb : (a.dim == e) with
    | true =>
      rw [if_pos rfl]
      have had : a.dim = e := beq_iff_eq.mp hb
      have hb2 : (a.dim == d) = false := by
        simp [had]
        omega
      rw [getByDim_cons_skip d a as hb2]
    | false =>
      rw [if_neg (by simp)]
      cases hb3 : (a.dim == d) with
      | true =>
        rw [getByDim_cons_hit d a _ hb3, getByDim_cons_hit d a as hb3]
      | false =>
        rw [getByDim_cons_skip d a _ hb3, getByDim_cons_skip d a as hb3]
        exact ih

theorem attrValsM_cons_hit (d : Nat) (a : GhtAttribute)
    (as : List GhtAttribute) (hb : (a.dim == d) = true) :
    attrValsM d (a :: as) = a.val ::ₘ attrValsM d as := by
  rw [attrValsM, attrValsM, List.filter_cons]
  simp [hb]

theorem attrValsM_cons_skip (d : Nat) (a : GhtAttribute)
    (as : List GhtAttribute) (hb : (a.dim == d) = false) :
    attrValsM d (a :: as) = attrValsM d as := by
  rw [attrValsM, attrValsM, List.filter_cons]
  simp [hb]

theorem attrValsM_cons_self (d : Nat) (v : Int) (as : List GhtAttribute) :
    attrValsM d (GhtAttribute.mk d v :: as) = v ::ₘ attrValsM d as :=
  attrValsM_cons_hit d (GhtAttribute.mk d v) as (by simp)

theorem attrValsM_cons_other (d e : Nat) (hne : d ≠ e) (v : Int)
    (as : List GhtAttribute) :
    attrValsM d (GhtAttribute.mk e v :: as) = attrValsM d as :=
  attrValsM_cons_skip d (GhtAttribute.mk e v) as (by simp; omega)

theorem attrValsM_removeAttr_other (d e : Nat) (hne : d ≠ e) :
    ∀ as : List GhtAttribute, attrValsM d (removeAttr e as) = attrValsM d as := by
  intro as
  induction as with
  | nil => rfl
  | cons a as ih =>
    rw [removeAttr]
    cases hb : (a.dim == e) with
    | true =>
      rw [if_pos rfl]
      have had : a.dim = e := beq_iff_eq.mp hb
      have hb2 : (a.dim == d) = false := by
        simp [had]
        omega
      rw [attrValsM_cons_skip d a as hb2]
    | false =>
      rw [if_neg (by simp)]
      cases hb3 : (a.dim == d) with
      | true =>
        rw [attrValsM_cons_hit d a _ hb3, attrValsM_cons_hit d a as hb3, ih]
      | false =>
        rw [attrValsM_cons_skip d a _ hb3, attrValsM_cons_skip d a as hb3, ih]

theorem attrValsM_remove_of_get (d : Nat) :
    ∀ (as : List GhtAttribute) (a : GhtAttribute), getByDim as d = some a →
      attrValsM d as = a.val ::ₘ attrValsM d (removeAttr d as) := by
  intro as
  induction as with
  | nil => intro a h; exact absurd h (by rw [getByDim]; simp)
  | cons x xs ih =>
    intro a h
    rw [getByDim, List.find?] at h
    cases hb : (x.dim == d) with
    | true =>
      rw [hb] at h
      have hax : x = a := by simpa using h
      subst hax
      rw [removeAttr, if_pos hb]
      rw [attrValsM_cons_hit d x xs hb]
    | false =>
      rw [hb] at h
      have h2 := ih a (by rw [getByDim]; exact h)
      rw [removeAttr, if_neg (by simp [hb])]
      rw [attrValsM_cons_skip d x xs hb, attrValsM_cons_skip d x _ hb]
      exact h2

theorem compactList_map_fst (d : Nat) :
    ∀ l : List GhtNode,
      (compactList d l).map (fun p => p.1) = l.map (compactNode d) := by
  intro l
  induction l with
  | nil => rw [compactList_nil]; rfl
  | cons c cs ih => rw [compactList_cons, List.map_cons, List.map_cons, ih]; rfl

theorem compactList_map_snd (d : Nat) :
    ∀ l : List GhtNode,
      (compactList d l).map (fun p => p.2) = l.map (compactYield d) := by
  intro l
  induction l with
  | nil => rw [compactList_nil]; rfl
  | cons c cs ih => rw [compactList_cons, List.map_cons, List.map_cons, ih]; rfl

theorem compactList_map_stripfst (d : Nat) :
    ∀ l : List GhtNode,
      (compactList d l).map (fun p => stripTop d p.1)
        = l.map (fun c => stripTop d (compactNode d c)) := by
  intro l
  induction l with
  | nil => rw [compactList_nil]; rfl
  | cons c cs ih => rw [compactList_cons, List.map_cons, List.map_cons, ih]; rfl

theorem compactNode_leaf (d : Nat) (n : GhtNode) (h : n.children = []) :
    compactNode d n = n := by
  rw [compactNode, compact_leaf d n h]

theorem compactYield_leaf (d : Nat) (n : GhtNode) (h : n.children = []) :
    compactYield d n = (getByDim n.attributes d).map GhtAttribute.val := by
  rw [compactYield, compact_leaf d n h]

theorem compactNode_agree (d : Nat) (n : GhtNode) (v : Int)
    (h : n.children ≠ [])
    (hag : allAgree (n.children.map (compactYield d)) = some v) :
    compactNode d n
      = GhtNode.mk n.hash n.ghtFlag (GhtAttribute.mk d v :: n.attributes)
          (n.children.map (fun c => stripTop d (compactNode d c))) := by
  have hag2 : allAgree ((compactList d n.children).map (fun p => p.2)) = some v := by
    rw [compactList_map_snd]
    exact hag
  rw [compactNode, compact_agree d n v h hag2]
  simp only [compactList_map_stripfst]

theorem compactYield_agree (d : Nat) (n : GhtNode) (v : Int)
    (h : n.children ≠ [])
    (hag : allAgree (n.children.map (compactYield d)) = some v) :
    compactYield d n = some v := by
  have hag2 : allAgree ((compactList d n.children).map (fun p => p.2)) = some v := by
    rw [compactList_map_snd]
    exact hag
  rw [compactYield, compact_agree d n v h hag2]

theorem compactNode_none (d : Nat) (n : GhtNode) (h : n.children ≠ [])
    (hag : allAgree (n.children.map (compactYield d)) = none) :
    compactNode d n
      = GhtNode.mk n.hash n.ghtFlag n.attributes
          (n.children.map (compactNode d)) := by
  have hag2 : allAgree ((compactList d n.children).map (fun p => p.2)) = none := by
    rw [compactList_map_snd]
    exact hag
  rw [compactNode, compact_none d n h hag2]
  simp only [compactList_map_fst]

theorem compactYield_none (d : Nat) (n : GhtNode) (h : n.children ≠ [])
    (hag : allAgree (n.children.map (compactYield d)) = none) :
    compactYield d n = none := by
  have hag2 : allAgree ((compactList d n.children).map (fun p => p.2)) = none := by
    rw [compactList_map_snd]
    exact hag
  rw [compactYield, compact_none d n h hag2]

theorem compactYield_internal (d : Nat) (n : GhtNode) (h : n.children ≠ []) :
    compactYield d n = allAgree (n.children.map (compactYield d)) := by
  cases hag : allAgree (n.children.map (compactYield d)) with
  | none => exact compactYield_none d n h hag
  | some v => exact compactYield_agree d n v h hag

theorem compactNode_hash (d : Nat) (n : GhtNode) :
    (compactNode d n).hash = n.hash := by
  rcases hc : n.children with _ | ⟨c, cs⟩
  · rw [compactNode_leaf d n hc]
  · have h : n.children ≠ [] := by rw [hc]; exact List.cons_ne_nil c cs
    cases hag : allAgree (n.children.map (compactYield d)) with
    | none => rw [compactNode_none d n h hag, GhtNode.hash_mk]
    | some v => rw [compactNode_agree d n v h hag, GhtNode.hash_mk]

theorem compactNode_children_nil (d : Nat) (n : GhtNode)
    (h : n.children = []) : (compactNode d n).children = [] := by
  rw [compactNode_leaf d n h, h]

theorem compactNode_children_ne_nil (d : Nat) (n : GhtNode)
    (h : n.children ≠ []) : (compactNode d n).children ≠ [] := by
  cases hag : allAgree (n.children.map (compactYield d)) with
  | none =>
    rw [compactNode_none d n h hag, GhtNode.children_mk]
    simp [h]
  | some v =>
    rw [compactNode_agree d n v h hag, GhtNode.children_mk]
    simp [h]

theorem obsM_leaf (d : Nat) (acc : Multiset Int) (n : GhtNode)
    (h : n.children = []) :
    obsM d acc n = [(n.hash, acc + attrValsM d n.attributes)] := by
  rw [obsM, h]
  rfl

theorem obsM_internal (d : Nat) (acc : Multiset Int) (n : GhtNode)
    (h : n.children ≠ []) :
    obsM d acc n
      = (obsMList d (acc + attrValsM d n.attributes) n.children).map
          (fun p => (n.hash ++ p.1, p.2)) := by
  rw [obsM]
  rcases hc : n.children with _ | ⟨c, cs⟩
  · exact absurd hc h
  · rfl

theorem obsMList_nil (d : Nat) (acc : Multiset Int) : obsMList d acc [] = [] := by
  rw [obsMList]

theorem obsMList_cons (d : Nat) (acc : Multiset Int) (c : GhtNode)
    (cs : List GhtNode) :
    obsMList d acc (c :: cs) = obsM d acc c ++ obsMList d acc cs := by
  rw [obsMList]

theorem leafDimsOk_leaf (n : GhtNode) (h : n.children = []) :
    leafDimsOk n ↔ (n.attributes.map GhtAttribute.dim).Nodup := by
  rw [leafDimsOk, h]
  simp

theorem leafDimsOk_internal (n : GhtNode) (h : n.children ≠ []) :
    leafDimsOk n ↔ leafDimsOkList n.children := by
  rw [leafDimsOk]
  rcases hc : n.children with _ | ⟨c, cs⟩
  · exact absurd hc h
  · simp

theorem leafDimsOkList_nil : leafDimsOkList [] := by
  rw [leafDimsOkList]
  trivial

theorem leafDimsOkList_cons (c : GhtNode) (cs : List GhtNode) :
    leafDimsOkList (c :: cs) ↔ leafDimsOk c ∧ leafDimsOkList cs := by
  rw [leafDimsOkList]

theorem noAgree_iff (d : Nat) (n : GhtNode) :
    noAgree d n
      ↔ (n.children ≠ [] →
          allAgree (n.children.map (compactYield d)) = none
            ∧ noAgreeList d n.children) := by
  rw [noAgree, compactList_map_snd]

theorem noAgreeList_nil (d : Nat) : noAgreeList d [] := by
  rw [noAgreeList]
  trivial

theorem noAgreeList_cons (d : Nat) (c : GhtNode) (cs : List GhtNode) :
    noAgreeList d (c :: cs) ↔ noAgree d c ∧ noAgreeList d cs := by
  rw [noAgreeList]

theorem dSim_iff (d : Nat) (m n : GhtNode) :
    dSim d m n
      ↔ m.hash = n.hash
        ∧ getByDim m.attributes d = getByDim n.attributes d
        ∧ attrValsM d m.attributes = attrValsM d n.attributes
        ∧ dSimList d m.children n.children := by
  rw [dSim]

theorem dSimList_nil (d : Nat) : dSimList d [] [] := by
  rw [dSimList]
  trivial

theorem dSimList_nil_cons (d : Nat) (b : GhtNode) (bs : List GhtNode) :
    ¬ dSimList d [] (b :: bs) := by
  rw [dSimList]
  exact id

theorem dSimList_cons_nil (d : Nat) (a : GhtNode) (as : List GhtNode) :
    ¬ dSimList d (a :: as) [] := by
  rw [dSimList]
  exact id

theorem dSimList_cons (d : Nat) (a b : GhtNode) (as bs : List GhtNode) :
    dSimList d (a :: as) (b :: bs) ↔ dSim d a b ∧ dSimList d as bs := by
  rw [dSimList]

theorem allAgree_eq_none_of_mem_none (l : List (Option Int))
    (h : none ∈ l) : allAgree l = none := by
  cases hh : allAgree l with
  | none => rfl
  | some v => exact absurd (allAgree_some_mem l v hh none h) (by simp)

theorem dSimList_refl_of (d : Nat) :
    ∀ l : List GhtNode, (∀ c ∈ l, dSim d c c) → dSimList d l l := by
  intro l
  induction l with
  | nil => intro _; exact dSimList_nil d
  | cons c cs ihl =>
    intro h
    rw [dSimList_cons]
    exact ⟨h c (List.mem_cons_self c cs),
      ihl (fun x hx => h x (List.mem_cons_of_mem c hx))⟩

theorem dSim_refl (d : Nat) : ∀ n, dSim d n n := by
  refine GhtNode.strongInd (fun n => dSim d n n) ?_
  intro n ih
  rw [dSim_iff]
  exact ⟨rfl, rfl, rfl, dSimList_refl_of d n.children ih⟩

theorem dSimList_refl (d : Nat) (l : List GhtNode) : dSimList d l l :=
  dSimList_refl_of d l (fun c _ => dSim_refl d c)

theorem dSimList_trans_of (d : Nat) :
    ∀ (as bs cs : List GhtNode), dSimList d as bs → dSimList d bs cs →
      (∀ a ∈ as, ∀ b c, dSim d a b → dSim d b c → dSim d a c) →
      dSimList d as cs := by
  intro as
  induction as with
  | nil =>
    intro bs cs h1 h2 _
    cases bs with
    | nil =>
      cases cs with
      | nil => exact dSimList_nil d
      | cons c cs2 => exact absurd h2 (dSimList_nil_cons d c cs2)
    | cons b bs2 => exact absurd h1 (dSimList_nil_cons d b bs2)
  | cons a as2 ih =>
    intro bs cs h1 h2 hp
    cases bs with
    | nil => exact absurd h1 (dSimList_cons_nil d a as2)
    | cons b bs2 =>
      cases cs with
      | nil => exact absurd h2 (dSimList_cons_nil d b bs2)
      | cons c cs2 =>
        rw [dSimList_cons] at h1 h2 ⊢
        exact ⟨hp a (List.mem_cons_self a as2) b c h1.1 h2.1,
          ih bs2 cs2 h1.2 h2.2
            (fun x hx => hp x (List.mem_cons_of_mem a hx))⟩

theorem dSim_trans (d : Nat) :
    ∀ a b c, dSim d a b → dSim d b c → dSim d a c := by
  refine GhtNode.strongInd
    (fun a => ∀ b c, dSim d a b → dSim d b c → dSim d a c) ?_
  intro a ih b c h1 h2
  rw [dSim_iff] at h1 h2 ⊢
  obtain ⟨e1, e2, e3, e4⟩ := h1
  obtain ⟨f1, f2, f3, f4⟩ := h2
  exact ⟨e1.trans f1, e2.trans f2, e3.trans f3,
    dSimList_trans_of d a.children b.children c.children e4 f4 ih⟩

theorem dSimList_map_yield (d : Nat) :
    ∀ as bs, dSimList d as bs →
      (∀ c ∈ as, ∀ n2, dSim d c n2 → compactYield d c = compactYield d n2) →
      as.map (compactYield d) = bs.map (compactYield d) := by
  intro as
  induction as with
  | nil =>
    intro bs h _
    cases bs with
    | nil => rfl
    | cons b bs2 => exact absurd h (dSimList_nil_cons d b bs2)
  | cons a as2 ih =>
    intro bs h hp
    cases bs with
    | nil => exact absurd h (dSimList_cons_nil d a as2)
    | cons b bs2 =>
      rw [dSimList_cons] at h
      rw [List.map_cons, List.map_cons,
        hp a (List.mem_cons_self a as2) b h.1,
        ih bs2 h.2 (fun x hx => hp x (List.mem_cons_of_mem a hx))]

theorem dSim_yield (d : Nat) :
    ∀ m n, dSim d m n → compactYield d m = compactYield d n := by
  refine GhtNode.strongInd
    (fun m => ∀ n, dSim d m n → compactYield d m = compactYield d n) ?_
  intro m ih n hsim
  rw [dSim_iff] at hsim
  obtain ⟨hh, hg, ha, hcl⟩ := hsim
  rcases hm : m.children with _ | ⟨c, cs⟩ <;> rcases hn : n.children with _ | ⟨c2, cs2⟩
  · rw [compactYield_leaf d m hm, compactYield_leaf d n hn, hg]
  · rw [hm, hn] at hcl
    exact absurd hcl (dSimList_nil_cons d c2 cs2)
  · rw [hm, hn] at hcl
    exact absurd hcl (dSimList_cons_nil d c cs)
  · have hmne : m.children ≠ [] := by rw [hm]; exact List.cons_ne_nil c cs
    have hnne : n.children ≠ [] := by rw [hn]; exact List.cons_ne_nil c2 cs2
    rw [compactYield_internal d m hmne, compactYield_internal d n hnne,
      dSimList_map_yield d m.children n.children hcl
        (fun x hx => ih x hx)]

theorem dSimList_noAgree (d : Nat) :
    ∀ as bs, dSimList d as bs →
      (∀ c ∈ as, ∀ n2, dSim d c n2 → (noAgree d c ↔ noAgree d n2)) →
      (noAgreeList d as ↔ noAgreeList d bs) := by
  intro as
  induction as with
  | nil =>
    intro bs h _
    cases bs with
    | nil => exact Iff.rfl
    | cons b bs2 => exact absurd h (dSimList_nil_cons d b bs2)
  | cons a as2 ih =>
    intro bs h hp
    cases bs with
    | nil => exact absurd h (dSimList_cons_nil d a as2)
    | cons b bs2 =>
      rw [dSimList_cons] at h
      rw [noAgreeList_cons, noAgreeList_cons]
      exact and_congr (hp a (List.mem_cons_self a as2) b h.1)
        (ih bs2 h.2 (fun x hx => hp x (List.mem_cons_of_mem a hx)))

theorem dSim_noAgree (d : Nat) :
    ∀ m n, dSim d m n → (noAgree d m ↔ noAgree d n) := by
  refine GhtNode.strongInd
    (fun m => ∀ n, dSim d m n → (noAgree d m ↔ noAgree d n)) ?_
  intro m ih n hsim
  rw [dSim_iff] at hsim
  obtain ⟨hh, hg, ha, hcl⟩ := hsim
  rw [noAgree_iff, noAgree_iff]
  rcases hm : m.children with _ | ⟨c, cs⟩ <;> rcases hn : n.children with _ | ⟨c2, cs2⟩
  · simp
  · rw [hm, hn] at hcl
    exact absurd hcl (dSimList_nil_cons d c2 cs2)
  · rw [hm, hn] at hcl
    exact absurd hcl (dSimList_cons_nil d c cs)
  · rw [hm, hn] at hcl
    have hA : List.map (compactYield d) (c :: cs)
        = List.map (compactYield d) (c2 :: cs2) :=
      dSimList_map_yield d _ _ hcl (fun x _ n2 hs => dSim_yield d x n2 hs)
    have hL : noAgreeList d (c :: cs) ↔ noAgreeList d (c2 :: cs2) :=
      dSimList_noAgree d _ _ hcl (fun x hx => ih x (by rw [hm]; exact hx))
    constructor
    · intro h1 _
      rcases h1 (List.cons_ne_nil c cs) with ⟨ha1, hl1⟩
      exact ⟨by rw [← hA]; exact ha1, hL.mp hl1⟩
    · intro h1 _
      rcases h1 (List.cons_ne_nil c2 cs2) with ⟨ha1, hl1⟩
      exact ⟨by rw [hA]; exact ha1, hL.mpr hl1⟩

theorem dSimList_obsMList (d : Nat) :
    ∀ as bs, dSimList d as bs →
      (∀ c ∈ as, ∀ n2, dSim d c n2 → ∀ acc, obsM d acc c = obsM d acc n2) →
      ∀ acc, obsMList d acc as = obsMList d acc bs := by
  intro as
  induction as with
  | nil =>
    intro bs h _ acc
    cases bs with
    | nil => rfl
    | cons b bs2 => exact absurd h (dSimList_nil_cons d b bs2)
  | cons a as2 ih =>
    intro bs h hp acc
    cases bs with
    | nil => exact absurd h (dSimList_cons_nil d a as2)
    | cons b bs2 =>
      rw [dSimList_cons] at h
      rw [obsMList_cons, obsMList_cons,
        hp a (List.mem_cons_self a as2) b h.1 acc,
        ih bs2 h.2 (fun x hx => hp x (List.mem_cons_of_mem a hx)) acc]

theorem dSim_obsM (d : Nat) :
    ∀ m n, dSim d m n → ∀ acc, obsM d acc m = obsM d acc n := by
  refine GhtNode.strongInd
    (fun m => ∀ n, dSim d m n → ∀ acc, obsM d acc m = obsM d acc n) ?_
  intro m ih n hsim acc
  rw [dSim_iff] at hsim
  obtain ⟨hh, hg, ha, hcl⟩ := hsim
  rcases hm : m.children with _ | ⟨c, cs⟩ <;> rcases hn : n.children with _ | ⟨c2, cs2⟩
  · rw [obsM_leaf d acc m hm, obsM_leaf d acc n hn, hh, ha]
  · rw [hm, hn] at hcl
    exact absurd hcl (dSimList_nil_cons d c2 cs2)
  · rw [hm, hn] at hcl
    exact absurd hcl (dSimList_cons_nil d c cs)
  · have hmne : m.children ≠ [] := by rw [hm]; exact List.cons_ne_nil c cs
    have hnne : n.children ≠ [] := by rw [hn]; exact List.cons_ne_nil c2 cs2
    rw [obsM_internal d acc m hmne, obsM_internal d acc n hnne, hh, ha,
      dSimList_obsMList d m.children n.children hcl (fun x hx => ih x hx)]

theorem dSim_stripTop (d e : Nat) (hne : d ≠ e) (n : GhtNode) :
    dSim d (stripTop e n) n := by
  rw [dSim_iff]
  refine ⟨stripTop_hash e n, ?_, ?_, ?_⟩
  · rw [stripTop_attributes, getByDim_removeAttr_other d e hne]
  · rw [stripTop_attributes, attrValsM_removeAttr_other d e hne]
  · rw [stripTop_children]
    exact dSimList_refl d n.children

theorem dSimList_strip_map (d e : Nat) (hne : d ≠ e) :
    ∀ l : List GhtNode, (∀ c ∈ l, dSim d (compactNode e c) c) →
      dSimList d (l.map (fun c => stripTop e (compactNode e c))) l := by
  intro l
  induction l with
  | nil => intro _; exact dSimList_nil d
  | cons c cs ih =>
    intro h
    rw [List.map_cons, dSimList_cons]
    exact ⟨dSim_trans d _ _ _ (dSim_stripTop d e hne (compactNode e c))
        (h c (List.mem_cons_self c cs)),
      ih (fun x hx => h x (List.mem_cons_of_mem c hx))⟩

theorem dSimList_compact_map (d e : Nat) :
    ∀ l : List GhtNode, (∀ c ∈ l, dSim d (compactNode e c) c) →
      dSimList d (l.map (compactNode e)) l := by
  intro l
  induction l with
  | nil => intro _; exact dSimList_nil d
  | cons c cs ih =>
    intro h
    rw [List.map_cons, dSimList_cons]
    exact ⟨h c (List.mem_cons_self c cs),
      ih (fun x hx => h x (List.mem_cons_of_mem c hx))⟩

theorem dSim_compactNode (d e : Nat) (hne : d ≠ e) :
    ∀ n, dSim d (compactNode e n) n := by
  refine GhtNode.strongInd (fun n => dSim d (compactNode e n) n) ?_
  intro n ih
  rcases hc : n.children with _ | ⟨c, cs⟩
  · rw [compactNode_leaf e n hc]
    exact dSim_refl d n
  · have h : n.children ≠ [] := by rw [hc]; exact List.cons_ne_nil c cs
    have hbd : ((GhtAttribute.mk e 0).dim == d) = false := by
      simp
      omega
    cases hag : allAgree (n.children.map (compactYield e)) with
    | some v =>
      rw [compactNode_agree e n v h hag, dSim_iff]
      refine ⟨GhtNode.hash_mk _ _ _ _, ?_, ?_, ?_⟩
      · rw [GhtNode.attributes_mk,
          getByDim_cons_skip d (GhtAttribute.mk e v) n.attributes (by simp; omega)]
      · rw [GhtNode.attributes_mk,
          attrValsM_cons_skip d (GhtAttribute.mk e v) n.attributes (by simp; omega)]
      · rw [GhtNode.children_mk]
        exact dSimList_strip_map d e hne n.children ih
    | none =>
      rw [compactNode_none e n h hag, dSim_iff]
      exact ⟨GhtNode.hash_mk _ _ _ _, by rw [GhtNode.attributes_mk],
        by rw [GhtNode.attributes_mk], by
          rw [GhtNode.children_mk]
          exact dSimList_compact_map d e n.children ih⟩

theorem leafDimsOkList_mem :
    ∀ l : List GhtNode, leafDimsOkList l → ∀ c ∈ l, leafDimsOk c := by
  intro l
  induction l with
  | nil => intro _ c hc; exact absurd hc (List.not_mem_nil c)
  | cons x xs ih =>
    intro h c hc
    rw [leafDimsOkList_cons] at h
    rcases List.mem_cons.mp hc with rfl | hc2
    · exact h.1
    · exact ih h.2 c hc2

theorem leafDimsOkList_of_forall :
    ∀ l : List GhtNode, (∀ c ∈ l, leafDimsOk c) → leafDimsOkList l := by
  intro l
  induction l with
  | nil => intro _; exact leafDimsOkList_nil
  | cons x xs ih =>
    intro h
    rw [leafDimsOkList_cons]
    exact ⟨h x (List.mem_cons_self x xs),
      ih (fun c hc => h c (List.mem_cons_of_mem x hc))⟩

theorem noAgreeList_of_forall (d : Nat) :
    ∀ l : List GhtNode, (∀ c ∈ l, noAgree d c) → noAgreeList d l := by
  intro l
  induction l with
  | nil => intro _; exact noAgreeList_nil d
  | cons x xs ih =>
    intro h
    rw [noAgreeList_cons]
    exact ⟨h x (List.mem_cons_self x xs),
      ih (fun c hc => h c (List.mem_cons_of_mem x hc))⟩

theorem noAgree_stripTop (d e : Nat) (n : GhtNode) :
    noAgree d (stripTop e n) ↔ noAgree d n := by
  rw [noAgree_iff, noAgree_iff, stripTop_children]

theorem compactList_id_of_noAgree (d : Nat) :
    ∀ l : List GhtNode, noAgreeList d l →
      (∀ c ∈ l, noAgree d c → compactNode d c = c) →
      l.map (compactNode d) = l := by
  intro l
  induction l with
  | nil => intro _ _; rfl
  | cons c cs ih =>
    intro h hp
    rw [noAgreeList_cons] at h
    rw [List.map_cons, hp c (List.mem_cons_self c cs) h.1,
      ih h.2 (fun x hx => hp x (List.mem_cons_of_mem c hx))]

theorem compactNode_of_noAgree (d : Nat) :
    ∀ n, noAgree d n → compactNode d n = n := by
  refine GhtNode.strongInd (fun n => noAgree d n → compactNode d n = n) ?_
  intro n ih hna
  rcases hc : n.children with _ | ⟨c, cs⟩
  · exact compactNode_leaf d n hc
  · have h : n.children ≠ [] := by rw [hc]; exact List.cons_ne_nil c cs
    rw [noAgree_iff] at hna
    rcases hna h with ⟨hag, hlist⟩
    rw [compactNode_none d n h hag,
      compactList_id_of_noAgree d n.children hlist ih]
    exact (GhtNode.ext_iff n).symm

theorem compact_main (d : Nat) :
    ∀ n, leafDimsOk n →
      noAgree d (compactNode d n)
      ∧ (compactYield d (compactNode d n) = compactYield d n
          ∨ compactYield d (compactNode d n) = none)
      ∧ (∀ v : Int, compactYield d n = some v →
          compactYield d (stripTop d (compactNode d n)) = none) := by
  refine GhtNode.strongInd (fun n => leafDimsOk n →
    noAgree d (compactNode d n)
    ∧ (compactYield d (compactNode d n) = compactYield d n
        ∨ compactYield d (compactNode d n) = none)
    ∧ (∀ v : Int, compactYield d n = some v →
        compactYield d (stripTop d (compactNode d n)) = none)) ?_
  intro n ih hok
  rcases hc : n.children with _ | ⟨c, cs⟩
  · have hout : compactNode d n = n := compactNode_leaf d n hc
    refine ⟨?_, ?_, ?_⟩
    · rw [hout, noAgree_iff]
      intro hne
      exact absurd hc hne
    · rw [hout]
      exact Or.inl rfl
    · intro v hv
      have hnd : (n.attributes.map GhtAttribute.dim).Nodup :=
        (leafDimsOk_leaf n hc).mp hok
      have hsc : (stripTop d n).children = [] := by rw [stripTop_children, hc]
      rw [hout, compactYield_leaf d _ hsc, stripTop_attributes,
        getByDim_removeAttr_none d n.attributes hnd]
      rfl
  · have h : n.children ≠ [] := by rw [hc]; exact List.cons_ne_nil c cs
    have hlist : leafDimsOkList n.children := (leafDimsOk_internal n h).mp hok
    have hih := fun x hx => ih x hx (leafDimsOkList_mem n.children hlist x hx)
    cases hag : allAgree (n.children.map (compactYield d)) with
    | some v =>
      have hvchild : ∀ x ∈ n.children, compactYield d x = some v := by
        intro x hx
        exact allAgree_some_mem _ v hag (compactYield d x)
          (List.mem_map_of_mem (compactYield d) hx)
      have hout := compactNode_agree d n v h hag
      have hK : ∀ x ∈ n.children,
          compactYield d (stripTop d (compactNode d x)) = none :=
        fun x hx => (hih x hx).2.2 v (hvchild x hx)
      have hKA : ∀ x ∈ n.children,
          noAgree d (stripTop d (compactNode d x)) :=
        fun x hx => (noAgree_stripTop d d (compactNode d x)).mpr (hih x hx).1
      have hallnone : allAgree
          ((n.children.map (fun x => stripTop d (compactNode d x))).map
            (compactYield d)) = none := by
        apply allAgree_all_none
        intro o ho
        rcases List.mem_map.mp ho with ⟨x, hx, rfl⟩
        rcases List.mem_map.mp hx with ⟨x2, hx2, rfl⟩
        exact hK x2 hx2
      refine ⟨?_, ?_, ?_⟩
      · rw [hout, noAgree_iff, GhtNode.children_mk]
        intro _
        refine ⟨hallnone, noAgreeList_of_forall d _ ?_⟩
        intro x hx
        rcases List.mem_map.mp hx with ⟨x2, hx2, rfl⟩
        exact hKA x2 hx2
      · refine Or.inr ?_
        have hne2 : (compactNode d n).children ≠ [] :=
          compactNode_children_ne_nil d n h
        rw [compactYield_internal d _ hne2, hout, GhtNode.children_mk]
        exact hallnone
      · intro v2 _
        have hne2 : (stripTop d (compactNode d n)).children ≠ [] := by
          rw [stripTop_children]
          exact compactNode_children_ne_nil d n h
        rw [compactYield_internal d _ hne2, stripTop_children, hout,
          GhtNode.children_mk]
        exact hallnone
    | none =>
      have hout := compactNode_none d n h hag
      have hagout : allAgree
          ((n.children.map (compactNode d)).map (compactYield d)) = none := by
        by_cases hall : ∀ x ∈ n.children,
            compactYield d (compactNode d x) = compactYield d x
        · have hmm : (n.children.map (compactNode d)).map (compactYield d)
              = n.children.map (compactYield d) := by
            rw [List.map_map]
            exact List.map_congr_left (fun x hx => hall x hx)
          rw [hmm, hag]
        · push_neg at hall
          obtain ⟨x, hx, hne2⟩ := hall
          have hnone := ((hih x hx).2.1).resolve_left hne2
          apply allAgree_eq_none_of_mem_none
          rw [List.map_map]
          exact List.mem_map.mpr ⟨x, hx, hnone⟩
      refine ⟨?_, ?_, ?_⟩
      · rw [hout, noAgree_iff, GhtNode.children_mk]
        intro _
        refine ⟨hagout, noAgreeList_of_forall d _ ?_⟩
        intro x hx
        rcases List.mem_map.mp hx with ⟨x2, hx2, rfl⟩
        exact (hih x2 hx2).1
      · refine Or.inr ?_
        have hne2 : (compactNode d n).children ≠ [] :=
          compactNode_children_ne_nil d n h
        rw [compactYield_internal d _ hne2, hout, GhtNode.children_mk]
        exact hagout
      · intro v hv
        rw [compactYield_none d n h hag] at hv
        exact absurd hv (by simp)

theorem compactNode_idem (d : Nat) (n : GhtNode) (h : leafDimsOk n) :
    compactNode d (compactNode d n) = compactNode d n :=
  compactNode_of_noAgree d _ (compact_main d n h).1

theorem obsMList_strip (d : Nat) (v : Int) :
    ∀ l : List GhtNode,
      (∀ x ∈ l, ∀ acc2 : Multiset Int,
        obsM d (acc2 + {v}) (stripTop d (compactNode d x)) = obsM d acc2 x) →
      ∀ acc2 : Multiset Int,
        obsMList d (acc2 + {v})
          (l.map (fun x => stripTop d (compactNode d x))) = obsMList d acc2 l := by
  intro l
  induction l with
  | nil => intro _ acc2; rw [List.map_nil, obsMList_nil, obsMList_nil]
  | cons c cs ih =>
    intro h acc2
    rw [List.map_cons, obsMList_cons, obsMList_cons,
      h c (List.mem_cons_self c cs) acc2,
      ih (fun x hx => h x (List.mem_cons_of_mem c hx)) acc2]

theorem obsMList_compact (d : Nat) :
    ∀ l : List GhtNode,
      (∀ x ∈ l, ∀ acc2 : Multiset Int,
        obsM d acc2 (compactNode d x) = obsM d acc2 x) →
      ∀ acc2 : Multiset Int,
        obsMList d acc2 (l.map (compactNode d)) = obsMList d acc2 l := by
  intro l
  induction l with
  | nil => intro _ acc2; rw [List.map_nil]
  | cons c cs ih =>
    intro h acc2
    rw [List.map_cons, obsMList_cons, obsMList_cons,
      h c (List.mem_cons_self c cs) acc2,
      ih (fun x hx => h x (List.mem_cons_of_mem c hx)) acc2]

theorem compact_obs (d : Nat) :
    ∀ n, leafDimsOk n →
      (∀ acc : Multiset Int, obsM d acc (compactNode d n) = obsM d acc n)
      ∧ (∀ v : Int, compactYield d n = some v →
          ∀ acc : Multiset Int,
            obsM d (acc + {v}) (stripTop d (compactNode d n)) = obsM d acc n) := by
  refine GhtNode.strongInd (fun n => leafDimsOk n →
    (∀ acc : Multiset Int, obsM d acc (compactNode d n) = obsM d acc n)
    ∧ (∀ v : Int, compactYield d n = some v →
        ∀ acc : Multiset Int,
          obsM d (acc + {v}) (stripTop d (compactNode d n)) = obsM d acc n)) ?_
  intro n ih hok
  rcases hc : n.children with _ | ⟨c, cs⟩
  · constructor
    · intro acc
      rw [compactNode_leaf d n hc]
    · intro v hv acc
      rw [compactYield_leaf d n hc] at hv
      rcases Option.map_eq_some'.mp hv with ⟨a, hga, hav⟩
      have hsc : (stripTop d (compactNode d n)).children = [] := by
        rw [compactNode_leaf d n hc, stripTop_children, hc]
      rw [obsM_leaf d _ _ hsc, obsM_leaf d acc n hc, compactNode_leaf d n hc,
        stripTop_hash, stripTop_attributes,
        attrValsM_remove_of_get d n.attributes a hga, ← hav]
      simp [Multiset.singleton_add, add_assoc]
  · have h : n.children ≠ [] := by rw [hc]; exact List.cons_ne_nil c cs
    have hlist : leafDimsOkList n.children := (leafDimsOk_internal n h).mp hok
    have hih := fun x hx => ih x hx (leafDimsOkList_mem n.children hlist x hx)
    cases hag : allAgree (n.children.map (compactYield d)) with
    | some v =>
      have hvchild : ∀ x ∈ n.children, compactYield d x = some v := by
        intro x hx
        exact allAgree_some_mem _ v hag (compactYield d x)
          (List.mem_map_of_mem (compactYield d) hx)
      have hout := compactNode_agree d n v h hag
      have hkids :
          (n.children.map (fun x => stripTop d (compactNode d x))) ≠ [] := by
        rw [hc]
        simp
      have hQs : ∀ x ∈ n.children, ∀ acc2 : Multiset Int,
          obsM d (acc2 + {v}) (stripTop d (compactNode d x)) = obsM d acc2 x :=
        fun x hx => (hih x hx).2 v (hvchild x hx)
      constructor
      · intro acc
        rw [hout,
          obsM_internal d acc _ (by rw [GhtNode.children_mk]; exact hkids),
          obsM_internal d acc n h]
        simp only [GhtNode.hash_mk, GhtNode.attributes_mk, GhtNode.children_mk]
        rw [attrValsM_cons_self]
        have hacc : acc + (v ::ₘ attrValsM d n.attributes)
            = (acc + attrValsM d n.attributes) + {v} := by
          rw [← Multiset.singleton_add]
          abel
        rw [hacc, obsMList_strip d v n.children hQs]
      · intro v2 hv2 acc
        have hv2v : v2 = v := by
          rw [compactYield_agree d n v h hag] at hv2
          exact (Option.some.inj hv2).symm
        rw [hv2v, hout]
        have hstrip : stripTop d (GhtNode.mk n.hash n.ghtFlag
              (GhtAttribute.mk d v :: n.attributes)
              (n.children.map (fun x => stripTop d (compactNode d x))))
            = GhtNode.mk n.hash n.ghtFlag n.attributes
              (n.children.map (fun x => stripTop d (compactNode d x))) := by
          rw [stripTop, GhtNode.attributes_mk, removeAttr_head, withAttrs,
            GhtNode.hash_mk, GhtNode.ghtFlag_mk, GhtNode.children_mk]
        rw [hstrip,
          obsM_internal d _ _ (by rw [GhtNode.children_mk]; exact hkids),
          obsM_internal d acc n h]
        simp only [GhtNode.hash_mk, GhtNode.attributes_mk, GhtNode.children_mk]
        have hacc : (acc + {v}) + attrValsM d n.attributes
            = (acc + attrValsM d n.attributes) + {v} := by
          abel
        rw [hacc, obsMList_strip d v n.children hQs]
    | none =>
      have hout := compactNode_none d n h hag
      have hkids : (n.children.map (compactNode d)) ≠ [] := by
        rw [hc]
        simp
      have hPs : ∀ x ∈ n.children, ∀ acc2 : Multiset Int,
          obsM d acc2 (compactNode d x) = obsM d acc2 x :=
        fun x hx => (hih x hx).1
      constructor
      · intro acc
        rw [hout,
          obsM_internal d acc _ (by rw [GhtNode.children_mk]; exact hkids),
          obsM_internal d acc n h]
        simp only [GhtNode.hash_mk, GhtNode.attributes_mk, GhtNode.children_mk]
        rw [obsMList_compact d n.children hPs]
      · intro v hv
        rw [compactYield_none d n h hag] at hv
        exact absurd hv (by simp)

theorem removeAttr_sublist (d : Nat) :
    ∀ as : List GhtAttribute, (removeAttr d as).Sublist as := by
  intro as
  induction as with
  | nil => exact List.Sublist.refl []
  | cons a as ih =>
    rw [removeAttr]
    cases hb : (a.dim == d) with
    | true =>
      rw [if_pos rfl]
      exact List.sublist_cons_self a as
    | false =>
      rw [if_neg (by simp)]
      exact List.Sublist.cons₂ a ih

theorem leafDimsOk_stripTop (e : Nat) (n : GhtNode) (h : leafDimsOk n) :
    leafDimsOk (stripTop e n) := by
  rcases hc : n.children with _ | ⟨c, cs⟩
  · have hsc : (stripTop e n).children = [] := by rw [stripTop_children, hc]
    rw [leafDimsOk_leaf _ hsc, stripTop_attributes]
    have hnd : (n.attributes.map GhtAttribute.dim).Nodup :=
      (leafDimsOk_leaf n hc).mp h
    exact hnd.sublist (List.Sublist.map GhtAttribute.dim
      (removeAttr_sublist e n.attributes))
  · have hne : n.children ≠ [] := by rw [hc]; exact List.cons_ne_nil c cs
    have hsc : (stripTop e n).children ≠ [] := by rw [stripTop_children]; exact hne
    rw [leafDimsOk_internal _ hsc, stripTop_children]
    exact (leafDimsOk_internal n hne).mp h

theorem leafDimsOk_compactNode (e : Nat) :
    ∀ n, leafDimsOk n → leafDimsOk (compactNode e n) := by
  refine GhtNode.strongInd (fun n => leafDimsOk n → leafDimsOk (compactNode e n)) ?_
  intro n ih hok
  rcases hc : n.children with _ | ⟨c, cs⟩
  · rw [compactNode_leaf e n hc]
    exact hok
  · have h : n.children ≠ [] := by rw [hc]; exact List.cons_ne_nil c cs
    have hlist : leafDimsOkList n.children := (leafDimsOk_internal n h).mp hok
    have hih := fun x hx => ih x hx (leafDimsOkList_mem n.children hlist x hx)
    cases hag : allAgree (n.children.map (compactYield e)) with
    | some v =>
      rw [compactNode_agree e n v h hag]
      have hkids : (n.children.map (fun x => stripTop e (compactNode e x))) ≠ [] := by
        rw [hc]
        simp
      rw [leafDimsOk_internal _ (by rw [GhtNode.children_mk]; exact hkids),
        GhtNode.children_mk]
      apply leafDimsOkList_of_forall
      intro x hx
      rcases List.mem_map.mp hx with ⟨x2, hx2, rfl⟩
      exact leafDimsOk_stripTop e _ (hih x2 hx2)
    | none =>
      rw [compactNode_none e n h hag]
      have hkids : (n.children.map (compactNode e)) ≠ [] := by
        rw [hc]
        simp
      rw [leafDimsOk_internal _ (by rw [GhtNode.children_mk]; exact hkids),
        GhtNode.children_mk]
      apply leafDimsOkList_of_forall
      intro x hx
      rcases List.mem_map.mp hx with ⟨x2, hx2, rfl⟩
      exact hih x2 hx2

theorem fold_main (ds : List Nat) :
    ∀ r, leafDimsOk r →
      leafDimsOk (ds.foldl (fun a e => compactNode e a) r)
      ∧ (∀ d, noAgree d r → noAgree d (ds.foldl (fun a e => compactNode e a) r))
      ∧ (∀ d ∈ ds, noAgree d (ds.foldl (fun a e => compactNode e a) r)) := by
  induction ds with
  | nil =>
    intro r h
    exact ⟨h, fun d hd => hd, fun d hd => absurd hd (List.not_mem_nil d)⟩
  | cons e rest ih =>
    intro r h
    rw [List.foldl_cons]
    have h1 : leafDimsOk (compactNode e r) := leafDimsOk_compactNode e r h
    have h2 : ∀ d, noAgree d r → noAgree d (compactNode e r) := by
      intro d hd
      by_cases hde : d = e
      · subst hde
        exact (compact_main d r h).1
      · exact (dSim_noAgree d (compactNode e r) r
          (dSim_compactNode d e hde r)).mpr hd
    have h3 : noAgree e (compactNode e r) := (compact_main e r h).1
    obtain ⟨g1, g2, g3⟩ := ih (compactNode e r) h1
    refine ⟨g1, fun d hd => g2 d (h2 d hd), ?_⟩
    intro d hd
    rcases List.mem_cons.mp hd with rfl | hd2
    · exact g2 d h3
    · exact g3 d hd2

theorem fold_fix (ds : List Nat) :
    ∀ r, (∀ d ∈ ds, noAgree d r) →
      ds.foldl (fun a e => compactNode e a) r = r := by
  induction ds with
  | nil => intro r _; rfl
  | cons e rest ih =>
    intro r h
    rw [List.foldl_cons,
      compactNode_of_noAgree e r (h e (List.mem_cons_self e rest))]
    exact ih r (fun d hd => h d (List.mem_cons_of_mem e hd))

theorem obsM_compactNode (e d : Nat) (r : GhtNode) (h : leafDimsOk r)
    (acc : Multiset Int) :
    obsM d acc (compactNode e r) = obsM d acc r := by
  by_cases hde : d = e
  · subst hde
    exact (compact_obs d r h).1 acc
  · exact dSim_obsM d (compactNode e r) r (dSim_compactNode d e hde r) acc

theorem obsM_fold (ds : List Nat) :
    ∀ r, leafDimsOk r → ∀ (d : Nat) (acc : Multiset Int),
      obsM d acc (ds.foldl (fun a e => compactNode e a) r) = obsM d acc r := by
  induction ds with
  | nil => intro r _ d acc; rfl
  | cons e rest ih =>
    intro r h d acc
    rw [List.foldl_cons, ih (compactNode e r) (leafDimsOk_compactNode e r h) d acc,
      obsM_compactNode e d r h acc]

/-- **C4** (under the documented invariant that each leaf carries at most one
attribute per dimension): `ght_tree_compact_attributes` is
idempotent — running it on its own output changes nothing — and for every
dimension it preserves the per-leaf observations, each leaf of the tree paired
with the multiset of packed values for that dimension found on its
root-to-leaf path (attributes compacted onto ancestors counted). -/
theorem C4_compact (t : GhtTree) (h : leafDimsOk t.root) :
    ght_tree_compact_attributes (ght_tree_compact_attributes t)
        = ght_tree_compact_attributes t
    ∧ ∀ d : Nat,
        obsM d 0 (ght_tree_compact_attributes t).root = obsM d 0 t.root := by
  obtain ⟨sch, rt, nn, cfg⟩ := t
  have h2 : leafDimsOk rt := h
  have hfold : ∀ (ds : List Nat) (r : GhtNode),
      ds.foldl (fun r d => (ght_node_compact_attribute d r).1) r
        = ds.foldl (fun a e => compactNode e a) r := fun ds r => rfl
  constructor
  · rw [ght_tree_compact_attributes, ght_tree_compact_attributes]
    have hroot : ((List.range sch.length).drop 2).foldl
        (fun r d => (ght_node_compact_attribute d r).1)
        (((List.range sch.length).drop 2).foldl
          (fun r d => (ght_node_compact_attribute d r).1) rt)
        = ((List.range sch.length).drop 2).foldl
            (fun r d => (ght_node_compact_attribute d r).1) rt := by
      rw [hfold, hfold]
      exact fold_fix ((List.range sch.length).drop 2) _
        (fold_main ((List.range sch.length).drop 2) rt h2).2.2
    exact congrArg (fun r => GhtTree.mk sch r nn cfg) hroot
  · intro d
    rw [ght_tree_compact_attributes]
    have hroot : obsM d 0 (((List.range sch.length).drop 2).foldl
        (fun r d => (ght_node_compact_attribute d r).1) rt) = obsM d 0 rt := by
      rw [hfold]
      exact obsM_fold ((List.range sch.length).drop 2) rt h2 d 0
    exact hroot

theorem C4_compact_witness :
    leafDimsOk (GhtTree.mk [defaultDim, defaultDim, defaultDim]
        (GhtNode.mk [] 0 [GhtAttribute.mk 2 7] []) 1 defaultConfig).root
    ∧ (ght_tree_compact_attributes (ght_tree_compact_attributes
          (GhtTree.mk [defaultDim, defaultDim, defaultDim]
            (GhtNode.mk [] 0 [GhtAttribute.mk 2 7] []) 1 defaultConfig))
        = ght_tree_compact_attributes
            (GhtTree.mk [defaultDim, defaultDim, defaultDim]
              (GhtNode.mk [] 0 [GhtAttribute.mk 2 7] []) 1 defaultConfig)
      ∧ ∀ d : Nat,
          obsM d 0 (ght_tree_compact_attributes
              (GhtTree.mk [defaultDim, defaultDim, defaultDim]
                (GhtNode.mk [] 0 [GhtAttribute.mk 2 7] []) 1 defaultConfig)).root
            = obsM d 0 (GhtTree.mk [defaultDim, defaultDim, defaultDim]
                (GhtNode.mk [] 0 [GhtAttribute.mk 2 7] []) 1 defaultConfig).root) :=
  ⟨(leafDimsOk_leaf (GhtNode.mk [] 0 [GhtAttribute.mk 2 7] []) rfl).mpr
      (by decide),
    C4_compact (GhtTree.mk [defaultDim, defaultDim, defaultDim]
        (GhtNode.mk [] 0 [GhtAttribute.mk 2 7] []) 1 defaultConfig)
      ((leafDimsOk_leaf (GhtNode.mk [] 0 [GhtAttribute.mk 2 7] []) rfl).mpr
        (by decide))⟩

theorem natToLE_length : ∀ (s v : Nat), (natToLE s v).length = s := by
  intro s
  induction s with
  | zero => intro v; rfl
  | succ k ih =>
    intro v
    rw [natToLE, List.length_cons, ih]

theorem leToNat_natToLE : ∀ (s v : Nat), v < 256 ^ s →
    leToNat (natToLE s v) = v := by
  intro s
  induction s with
  | zero =>
    intro v h
    rw [pow_zero] at h
    rw [natToLE, leToNat]
    omega
  | succ k ih =>
    intro v h
    rw [natToLE, leToNat, ih (v / 256) (by rw [pow_succ] at h; omega)]
    omega

theorem packVal_length (s : Nat) (v : Int) : (packVal s v).length = s :=
  natToLE_length s _

theorem two_pow_eq (s : Nat) : 256 ^ s = 2 ^ (8 * s) := by
  rw [pow_mul]
  norm_num

theorem unpack_pack (sg : Bool) (s : Nat) (v : Int) (hs : 1 ≤ s)
    (hr : valInRange sg s v) :
    unpackVal sg s (packVal s v) = v := by
  have hMpos : (0:Int) < 2 ^ (8 * s) := by positivity
  have hsplit : 8 * s = (8 * s - 1) + 1 := by omega
  have hM2 : (2:Int) ^ (8 * s) = 2 ^ (8 * s - 1) * 2 := by
    conv_lhs => rw [hsplit, pow_succ]
  have hPpos : (0:Int) < 2 ^ (8 * s - 1) := by positivity
  have hcastM : ((2 ^ (8 * s) : Nat) : Int) = 2 ^ (8 * s) := by
    push_cast
    ring
  have hcastP : ((2 ^ (8 * s - 1) : Nat) : Int) = 2 ^ (8 * s - 1) := by
    push_cast
    ring
  cases sg with
  | false =>
    rw [valInRange, if_neg (by simp)] at hr
    have hemod : v % (2 ^ (8 * s)) = v := Int.emod_eq_of_lt hr.1 hr.2
    rw [unpackVal, packVal, hemod,
      leToNat_natToLE s _ (by rw [two_pow_eq]; omega)]
    rw [if_neg (by simp)]
    omega
  | true =>
    rw [valInRange, if_pos rfl] at hr
    by_cases hv : 0 ≤ v
    · have hlt : v < 2 ^ (8 * s) := by omega
      have hemod : v % (2 ^ (8 * s)) = v := Int.emod_eq_of_lt hv hlt
      rw [unpackVal, packVal, hemod,
        leToNat_natToLE s _ (by rw [two_pow_eq]; omega)]
      rw [if_neg ?hc]
      · omega
      case hc =>
        intro hcon
        rcases hcon with ⟨-, hge⟩
        omega
    · push_neg at hv
      have h0 : 0 ≤ v + 2 ^ (8 * s) := by omega
      have h1 : v + 2 ^ (8 * s) < 2 ^ (8 * s) := by omega
      have hstep : (v + 2 ^ (8 * s)) % (2 ^ (8 * s)) = v % (2 ^ (8 * s)) := by
        simp
      have hemod : v % (2 ^ (8 * s)) = v + 2 ^ (8 * s) := by
        rw [← hstep]
        exact Int.emod_eq_of_lt h0 h1
      rw [unpackVal, packVal, hemod,
        leToNat_natToLE s _ (by rw [two_pow_eq]; omega)]
      rw [if_pos ⟨rfl, by omega⟩]
      omega

theorem readByte_cons (b : Nat) (bs : List Nat) :
    readByte (b :: bs) = some (b, bs) := by
  rw [readByte]

theorem readN_eq (k : Nat) (bs rest : List Nat) (h : bs.length = k) :
    readN k (bs ++ rest) = some (bs, rest) := by
  subst h
  rw [readN, if_neg (by rw [List.length_append]; omega),
    List.take_left, List.drop_left]

theorem serWF_iff (schema : GhtSchema) (n : GhtNode) :
    serWF schema n
      ↔ n.hash.length < 256
        ∧ (∀ c ∈ n.hash, c.toNat < 256)
        ∧ n.ghtFlag < 256
        ∧ n.attributes.length < 256
        ∧ (∀ a ∈ n.attributes, a.dim < 256
            ∧ 1 ≤ typeSize (dimOf schema a.dim).ghtype
            ∧ valInRange (isSignedType (dimOf schema a.dim).ghtype)
                (typeSize (dimOf schema a.dim).ghtype) a.val)
        ∧ n.children.length < 2 ^ 32
        ∧ serWFList schema n.children := by
  rw [serWF]

theorem serWFList_nil (schema : GhtSchema) : serWFList schema [] := by
  rw [serWFList]
  trivial

theorem serWFList_cons (schema : GhtSchema) (c : GhtNode) (cs : List GhtNode) :
    serWFList schema (c :: cs) ↔ serWF schema c ∧ serWFList schema cs := by
  rw [serWFList]

theorem serWFList_mem (schema : GhtSchema) :
    ∀ l : List GhtNode, serWFList schema l → ∀ c ∈ l, serWF schema c := by
  intro l
  induction l with
  | nil => intro _ c hc; exact absurd hc (List.not_mem_nil c)
  | cons x xs ih =>
    intro h c hc
    rw [serWFList_cons] at h
    rcases List.mem_cons.mp hc with rfl | hc2
    · exact h.1
    · exact ih h.2 c hc2

theorem ght_node_write_list_nil (schema : GhtSchema) :
    ght_node_write_list schema [] = [] := by
  rw [ght_node_write_list]

theorem ght_node_write_list_cons (schema : GhtSchema) (c : GhtNode)
    (cs : List GhtNode) :
    ght_node_write_list schema (c :: cs)
      = ght_node_write schema c ++ ght_node_write_list schema cs := by
  rw [ght_node_write_list]

theorem write_mem_le (schema : GhtSchema) :
    ∀ (l : List GhtNode) (c : GhtNode), c ∈ l →
      (ght_node_write schema c).length
        ≤ (ght_node_write_list schema l).length := by
  intro l
  induction l with
  | nil => intro c hc; exact absurd hc (List.not_mem_nil c)
  | cons x xs ih =>
    intro c hc
    rw [ght_node_write_list_cons, List.length_append]
    rcases List.mem_cons.mp hc with rfl | hc2
    · omega
    · have := ih c hc2
      omega

theorem ght_node_write_length (schema : GhtSchema) (n : GhtNode) :
    (ght_node_write schema n).length
      = 7 + n.hash.length
        + ((n.attributes.map (serAttr schema)).flatten).length
        + (ght_node_write_list schema n.children).length := by
  rw [ght_node_write]
  simp only [List.length_cons, List.length_append, List.length_map,
    natToLE_length]
  omega

theorem parseAttrs_ser (schema : GhtSchema) :
    ∀ l : List GhtAttribute,
      (∀ a ∈ l, a.dim < 256
        ∧ 1 ≤ typeSize (dimOf schema a.dim).ghtype
        ∧ valInRange (isSignedType (dimOf schema a.dim).ghtype)
            (typeSize (dimOf schema a.dim).ghtype) a.val) →
      ∀ rest, parseAttrs schema l.length
          ((l.map (serAttr schema)).flatten ++ rest) = some (l, rest) := by
  intro l
  induction l with
  | nil => intro _ rest; rfl
  | cons a as ih =>
    intro h rest
    obtain ⟨hd, hsz, hvr⟩ := h a (List.mem_cons_self a as)
    have hmodd : a.dim % 256 = a.dim := Nat.mod_eq_of_lt hd
    have hih := ih (fun x hx => h x (List.mem_cons_of_mem a hx)) rest
    have hreadN : readN (typeSize (dimOf schema a.dim).ghtype)
        (packVal (typeSize (dimOf schema a.dim).ghtype) a.val
          ++ ((as.map (serAttr schema)).flatten ++ rest))
        = some (packVal (typeSize (dimOf schema a.dim).ghtype) a.val,
            (as.map (serAttr schema)).flatten ++ rest) :=
      readN_eq _ _ _ (packVal_length _ _)
    rw [List.length_cons, List.map_cons, List.flatten_cons, parseAttrs,
      serAttr]
    simp only [List.cons_append, List.append_assoc, readByte_cons, hmodd,
      hreadN, hih, unpack_pack _ _ _ hsz hvr]

theorem ght_node_read_list_write (schema : GhtSchema) (fuel : Nat) :
    ∀ l : List GhtNode,
      (∀ c ∈ l, ∀ rest2,
        ght_node_read schema fuel (ght_node_write schema c ++ rest2)
          = some (c, rest2)) →
      ∀ rest, ght_node_read_list schema fuel l.length
          (ght_node_write_list schema l ++ rest) = some (l, rest) := by
  intro l
  induction l with
  | nil =>
    intro _ rest
    rw [ght_node_write_list_nil, List.nil_append, List.length_nil,
      ght_node_read_list]
  | cons c cs ih =>
    intro h rest
    rw [List.length_cons, ght_node_write_list_cons, ght_node_read_list]
    simp only [List.append_assoc, h c (List.mem_cons_self c cs),
      ih (fun x hx => h x (List.mem_cons_of_mem c hx)) rest]

theorem ght_node_read_write (schema : GhtSchema) :
    ∀ n : GhtNode, serWF schema n →
      ∀ (fuel : Nat) (rest : List Nat),
        (ght_node_write schema n).length < fuel →
        ght_node_read schema fuel (ght_node_write schema n ++ rest)
          = some (n, rest) := by
  refine GhtNode.strongInd (fun n => serWF schema n →
    ∀ (fuel : Nat) (rest : List Nat),
      (ght_node_write schema n).length < fuel →
      ght_node_read schema fuel (ght_node_write schema n ++ rest)
        = some (n, rest)) ?_
  intro n ih hwf fuel rest hlen
  cases fuel with
  | zero => exact absurd hlen (Nat.not_lt_zero _)
  | succ f =>
    rw [serWF] at hwf
    obtain ⟨h1, h2, h3, h4, h5, h6, h7⟩ := hwf
    have hnode : ∀ c ∈ n.children, ∀ rest2,
        ght_node_read schema f (ght_node_write schema c ++ rest2)
          = some (c, rest2) := by
      intro c hc rest2
      apply ih c hc (serWFList_mem schema n.children h7 c hc) f rest2
      have hb := write_mem_le schema n.children c hc
      have hl := ght_node_write_length schema n
      omega
    have hchild := ght_node_read_list_write schema f n.children hnode
    have hmod1 : n.hash.length % 256 = n.hash.length := Nat.mod_eq_of_lt h1
    have hmod3 : n.ghtFlag % 256 = n.ghtFlag := Nat.mod_eq_of_lt h3
    have hmod4 : n.attributes.length % 256 = n.attributes.length :=
      Nat.mod_eq_of_lt h4
    have hhash : (n.hash.map (fun c => c.toNat % 256)).map Char.ofNat
        = n.hash := by
      rw [List.map_map]
      have hcc : ∀ c ∈ n.hash, Char.ofNat (c.toNat % 256) = c := by
        intro c hc
        rw [Nat.mod_eq_of_lt (h2 c hc), Char.ofNat_toNat]
      exact (List.map_congr_left hcc).trans (List.map_id n.hash)
    have hrd : ∀ rest2 : List Nat,
        readN n.hash.length (n.hash.map (fun c => c.toNat % 256) ++ rest2)
          = some (n.hash.map (fun c => c.toNat % 256), rest2) :=
      fun rest2 => readN_eq _ _ _ (by rw [List.length_map])
    have hrd4 : ∀ (v : Nat) (rest2 : List Nat),
        readN 4 (natToLE 4 v ++ rest2) = some (natToLE 4 v, rest2) :=
      fun v rest2 => readN_eq _ _ _ (natToLE_length 4 v)
    have hle4 : leToNat (natToLE 4 n.children.length) = n.children.length :=
      leToNat_natToLE 4 _
        (by rw [show (256:Nat) ^ 4 = 2 ^ 32 by norm_num]; exact h6)
    have hattrs := parseAttrs_ser schema n.attributes h5
    rw [ght_node_write, ght_node_read]
    simp only [List.cons_append, List.append_assoc, readByte_cons, hmod1,
      hmod3, hmod4, hrd, hattrs, hrd4, hle4, hchild, hhash]
    rw [← GhtNode.ext_iff]

/-- **C3**: writing a well-formed tree and reading the bytes back under the
same schema succeeds and returns a tree whose root is node-for-node the
original, so the leaf set and the per-leaf attribute observations are
identical; and writing the read-back tree again is byte-identical. -/
theorem C3_serialization (t : GhtTree) (hwf : serWF t.schema t.root)
    (hn : t.num_nodes < 2 ^ 32) :
    ∃ t2 : GhtTree,
      ght_tree_read t.schema (ght_tree_write t) = some t2
      ∧ t2.schema = t.schema
      ∧ t2.root = t.root
      ∧ nodeLeaves t2.root = nodeLeaves t.root
      ∧ (∀ d : Nat, obsM d 0 t2.root = obsM d 0 t.root)
      ∧ ght_tree_write t2 = ght_tree_write t := by
  obtain ⟨sch, rt, nn, cfg⟩ := t
  have hwf2 : serWF sch rt := hwf
  have hn2 : nn < 2 ^ 32 := hn
  have hm : ∀ Y : List Nat, readN 4 (ghtMagic ++ Y) = some (ghtMagic, Y) :=
    fun Y => readN_eq 4 ghtMagic Y rfl
  have h2b : ∀ Y : List Nat, readN 2 (0 :: 0 :: Y) = some ([0, 0], Y) :=
    fun Y => readN_eq 2 [0, 0] Y rfl
  have hrd4 : ∀ (v : Nat) (Y : List Nat),
      readN 4 (natToLE 4 v ++ Y) = some (natToLE 4 v, Y) :=
    fun v Y => readN_eq _ _ _ (natToLE_length 4 v)
  have hle4 : leToNat (natToLE 4 nn) = nn :=
    leToNat_natToLE 4 nn
      (by rw [show (256:Nat) ^ 4 = 2 ^ 32 by norm_num]; exact hn2)
  have hroot := ght_node_read_write sch rt hwf2
      ((ght_node_write sch rt).length + 1) [] (Nat.lt_succ_self _)
  rw [List.append_nil] at hroot
  refine ⟨GhtTree.mk sch rt nn defaultConfig, ?_, rfl, rfl, rfl,
    fun d => rfl, rfl⟩
  rw [ght_tree_write, ght_tree_read]
  simp [serHeader, List.append_assoc, hm, h2b, hrd4, hle4, hroot,
    readByte_cons]

theorem C3_serialization_witness :
    serWF ([] : GhtSchema) (GhtNode.mk [] 0 [] [])
    ∧ (0 : Nat) < 2 ^ 32
    ∧ (∃ t2 : GhtTree,
        ght_tree_read ([] : GhtSchema)
            (ght_tree_write
              (GhtTree.mk [] (GhtNode.mk [] 0 [] []) 0 defaultConfig))
          = some t2
        ∧ t2.schema = ([] : GhtSchema)
        ∧ t2.root = GhtNode.mk [] 0 [] []
        ∧ nodeLeaves t2.root = nodeLeaves (GhtNode.mk [] 0 [] [])
        ∧ (∀ d : Nat, obsM d 0 t2.root = obsM d 0 (GhtNode.mk [] 0 [] []))
        ∧ ght_tree_write t2
            = ght_tree_write
                (GhtTree.mk [] (GhtNode.mk [] 0 [] []) 0 defaultConfig)) :=
  ⟨(serWF_iff [] (GhtNode.mk [] 0 [] [])).mpr
      ⟨by rw [GhtNode.hash_mk]; norm_num,
        by rw [GhtNode.hash_mk]; simp,
        by rw [GhtNode.ghtFlag_mk]; norm_num,
        by rw [GhtNode.attributes_mk]; norm_num,
        by rw [GhtNode.attributes_mk]; simp,
        by rw [GhtNode.children_mk]; norm_num,
        serWFList_nil []⟩,
    by norm_num,
    C3_serialization (GhtTree.mk [] (GhtNode.mk [] 0 [] []) 0 defaultConfig)
      ((serWF_iff [] (GhtNode.mk [] 0 [] [])).mpr
        ⟨by rw [GhtNode.hash_mk]; norm_num,
          by rw [GhtNode.hash_mk]; simp,
          by rw [GhtNode.ghtFlag_mk]; norm_num,
          by rw [GhtNode.attributes_mk]; norm_num,
          by rw [GhtNode.attributes_mk]; simp,
          by rw [GhtNode.children_mk]; norm_num,
          serWFList_nil []⟩)
      (by norm_num)⟩

theorem memNodeStrongInd (P : MemNode → Prop)
    (ih : ∀ n : MemNode, (∀ c ∈ n.children, P c) → P n) : ∀ n, P n := by
  have key : ∀ k (n : MemNode), sizeOf n ≤ k → P n := by
    intro k
    induction k with
    | zero =>
      intro n h
      cases n with
      | mk a hh l c =>
        simp only [MemNode.mk.sizeOf_spec] at h
        omega
    | succ k ihk =>
      intro n h
      refine ih n ?_
      intro c hc
      refine ihk c ?_
      have h1 := memSizeOf_lt_of_mem c n.children hc
      have h2 := MemNode.sizeOf_children_lt n
      omega
  intro n
  exact key (sizeOf n) n (Nat.le_refl _)

theorem free1_at (a : Alloc) (p : Nat) : free1 a p p = false := by
  rw [free1]
  simp

theorem free1_other (a : Alloc) (p q : Nat) (h : q ≠ p) :
    free1 a p q = a q := by
  rw [free1]
  simp [h]

theorem freeAddrs_nil (a : Alloc) : freeAddrs a [] = a := rfl

theorem freeAddrs_cons (a : Alloc) (p : Nat) (ps : List Nat) :
    freeAddrs a (p :: ps) = freeAddrs (free1 a p) ps := rfl

theorem freeAddrs_not_mem (q : Nat) :
    ∀ (ps : List Nat) (a : Alloc), q ∉ ps → freeAddrs a ps q = a q := by
  intro ps
  induction ps with
  | nil => intro a _; rfl
  | cons p ps ih =>
    intro a h
    rw [freeAddrs_cons, ih (free1 a p) (fun hc => h (List.mem_cons_of_mem p hc)),
      free1_other a p q (fun hc => h (hc ▸ List.mem_cons_self p ps))]

theorem freeAddrs_mem (q : Nat) :
    ∀ (ps : List Nat) (a : Alloc), q ∈ ps → freeAddrs a ps q = false := by
  intro ps
  induction ps with
  | nil => intro a h; exact absurd h (List.not_mem_nil q)
  | cons p ps ih =>
    intro a h
    rw [freeAddrs_cons]
    by_cases hq : q ∈ ps
    · exact ih (free1 a p) hq
    · have hqp : q = p := by
        rcases List.mem_cons.mp h with h2 | h2
        · exact h2
        · exact absurd h2 hq
      rw [freeAddrs_not_mem q ps (free1 a p) hq, hqp, free1_at]

theorem ght_node_free_children_nil (a : Alloc) :
    ght_node_free_children a [] = a := by
  rw [ght_node_free_children]

theorem ght_node_free_children_cons (a : Alloc) (c : MemNode)
    (cs : List MemNode) :
    ght_node_free_children a (c :: cs)
      = ght_node_free_children (ght_node_free a c) cs := by
  rw [ght_node_free_children]

theorem nodeAddrs_eq (n : MemNode) :
    nodeAddrs n
      = n.addr :: n.hashAddr :: (n.attrAddrs ++ nodeAddrsList n.children) := by
  rw [nodeAddrs]

theorem nodeAddrsList_nil : nodeAddrsList [] = [] := by
  rw [nodeAddrsList]

theorem nodeAddrsList_cons (c : MemNode) (cs : List MemNode) :
    nodeAddrsList (c :: cs) = nodeAddrs c ++ nodeAddrsList cs := by
  rw [nodeAddrsList]

theorem ght_node_free_children_spec (q : Nat) :
    ∀ l : List MemNode,
      (∀ c ∈ l, ∀ a : Alloc,
        (q ∈ nodeAddrs c → ght_node_free a c q = false)
        ∧ (q ∉ nodeAddrs c → ght_node_free a c q = a q)) →
      ∀ a : Alloc,
        (q ∈ nodeAddrsList l → ght_node_free_children a l q = false)
        ∧ (q ∉ nodeAddrsList l → ght_node_free_children a l q = a q) := by
  intro l
  induction l with
  | nil =>
    intro _ a
    rw [nodeAddrsList_nil]
    exact ⟨fun h => absurd h (List.not_mem_nil q),
      fun _ => by rw [ght_node_free_children_nil]⟩
  | cons c cs ih =>
    intro h a
    have hc := h c (List.mem_cons_self c cs)
    have hcs := ih (fun x hx => h x (List.mem_cons_of_mem c hx))
    rw [nodeAddrsList_cons, ght_node_free_children_cons]
    constructor
    · intro hq
      rcases List.mem_append.mp hq with hq1 | hq2
      · by_cases hq2 : q ∈ nodeAddrsList cs
        · exact (hcs (ght_node_free a c)).1 hq2
        · rw [(hcs (ght_node_free a c)).2 hq2]
          exact (hc a).1 hq1
      · exact (hcs (ght_node_free a c)).1 hq2
    · intro hq
      rw [List.mem_append] at hq
      push_neg at hq
      rw [(hcs (ght_node_free a c)).2 hq.2, (hc a).2 hq.1]

theorem ght_node_free_spec (q : Nat) :
    ∀ n : MemNode, ∀ a : Alloc,
      (q ∈ nodeAddrs n → ght_node_free a n q = false)
      ∧ (q ∉ nodeAddrs n → ght_node_free a n q = a q) := by
  refine memNodeStrongInd (fun n => ∀ a : Alloc,
    (q ∈ nodeAddrs n → ght_node_free a n q = false)
    ∧ (q ∉ nodeAddrs n → ght_node_free a n q = a q)) ?_
  intro n ih a
  have hlist := ght_node_free_children_spec q n.children ih
  rw [nodeAddrs_eq, ght_node_free]
  constructor
  · intro hq
    by_cases hqa : q = n.addr
    · rw [hqa, free1_at]
    · rw [free1_other _ _ _ hqa]
      rcases List.mem_cons.mp hq with hq1 | hq2
      · exact absurd hq1 hqa
      · rcases List.mem_cons.mp hq2 with hq3 | hq4
        · by_cases hq5 : q ∈ nodeAddrsList n.children
          · exact (hlist _).1 hq5
          · rw [(hlist _).2 hq5]
            exact freeAddrs_mem q _ a
              (by rw [hq3]; exact List.mem_cons_self _ _)
        · rcases List.mem_append.mp hq4 with hq5 | hq6
          · by_cases hq7 : q ∈ nodeAddrsList n.children
            · exact (hlist _).1 hq7
            · rw [(hlist _).2 hq7]
              exact freeAddrs_mem q _ a (List.mem_cons_of_mem _ hq5)
          · exact (hlist _).1 hq6
  · intro hq
    rw [List.mem_cons] at hq
    push_neg at hq
    obtain ⟨hqa, hq2⟩ := hq
    rw [List.mem_cons] at hq2
    push_neg at hq2
    obtain ⟨hqh, hq3⟩ := hq2
    rw [List.mem_append] at hq3
    push_neg at hq3
    obtain ⟨hqat, hqc⟩ := hq3
    rw [free1_other _ _ _ hqa, (hlist _).2 hqc,
      freeAddrs_not_mem q _ a ?hnm]
    case hnm =>
      intro hc
      rcases List.mem_cons.mp hc with h1 | h2
      · exact hqh h1
      · exact hqat h2

/-- **C9**: `ght_tree_free` releases every address owned by the tree's root
subgraph — nodes, hash buffers, attribute cells — and leaves every other
address, in particular the shared read-only schema's, exactly as it was. -/
theorem C9_tree_free (t : MemTree) (a : Alloc)
    (hdisj : ∀ p ∈ t.schemaAddrs, p ∉ nodeAddrs t.root) :
    (∀ p ∈ nodeAddrs t.root, ght_tree_free t a p = false)
    ∧ (∀ p ∈ t.schemaAddrs, ght_tree_free t a p = a p) := by
  constructor
  · intro p hp
    exact (ght_node_free_spec p t.root a).1 hp
  · intro p hp
    exact (ght_node_free_spec p t.root a).2 (hdisj p hp)

theorem C9_tree_free_witness :
    (∀ p ∈ [(10 : Nat)], p ∉ nodeAddrs (MemNode.mk 0 1 [2] []))
    ∧ ((∀ p ∈ nodeAddrs (MemNode.mk 0 1 [2] []),
          ght_tree_free (MemTree.mk (MemNode.mk 0 1 [2] []) [10])
            (fun _ => true) p = false)
      ∧ (∀ p ∈ [(10 : Nat)],
          ght_tree_free (MemTree.mk (MemNode.mk 0 1 [2] []) [10])
            (fun _ => true) p = (fun _ => true) p)) :=
  ⟨by
      intro p hp
      rw [nodeAddrs_eq]
      simp [MemNode.addr, MemNode.hashAddr, MemNode.attrAddrs,
        MemNode.children, nodeAddrsList_nil] at hp ⊢
      omega,
    C9_tree_free (MemTree.mk (MemNode.mk 0 1 [2] []) [10]) (fun _ => true)
      (by
        intro p hp
        rw [nodeAddrs_eq]
        simp [MemNode.addr, MemNode.hashAddr, MemNode.attrAddrs,
          MemNode.children, nodeAddrsList_nil] at hp ⊢
        omega)⟩

theorem writeCell_at (h : AttrHeap) (p : Nat) (c : AttrCell) :
    writeCell h p c p = some c := by
  rw [writeCell]
  simp

theorem writeCell_other (h : AttrHeap) (p q : Nat) (c : AttrCell)
    (hq : q ≠ p) : writeCell h p c q = h q := by
  rw [writeCell]
  simp [hq]

theorem repChain_of_agree :
    ∀ (rep : List (Nat × AttrCell)) (h h2 : AttrHeap) (start : Option Nat),
      repChain h start rep → (∀ qc ∈ rep, h2 qc.1 = h qc.1) →
      repChain h2 start rep := by
  intro rep
  induction rep with
  | nil =>
    intro h h2 start hr _
    cases start with
    | none => rw [repChain]; trivial
    | some p => rw [repChain] at hr; exact absurd hr (by simp)
  | cons qc rest ih =>
    intro h h2 start hr hagree
    obtain ⟨q, c⟩ := qc
    cases start with
    | none => rw [repChain] at hr; exact absurd hr (by simp)
    | some p =>
      rw [repChain] at hr ⊢
      obtain ⟨hq, hc, hrest⟩ := hr
      refine ⟨hq, ?_, ih h h2 c.next hrest
        (fun x hx => hagree x (List.mem_cons_of_mem _ hx))⟩
      have := hagree (q, c) (List.mem_cons_self _ _)
      rw [← hq]
      rw [← hq] at hc
      exact this.trans hc

theorem get_by_dimension_spec (d out : Nat) :
    ∀ (rep : List (Nat × AttrCell)) (h : AttrHeap) (start : Option Nat)
      (fuel : Nat),
      repChain h start rep → rep.length < fuel →
      (∀ qc ∈ rep, qc.1 ≠ out) →
      (∀ q : Nat, q ≠ out →
        (ght_attribute_get_by_dimension h d out fuel start).1 q = h q)
      ∧ repChain (ght_attribute_get_by_dimension h d out fuel start).1
          start rep
      ∧ (match (rep.map Prod.snd).find? (fun c => c.dim == d) with
          | some c =>
            (ght_attribute_get_by_dimension h d out fuel start).1 out = some c
            ∧ (ght_attribute_get_by_dimension h d out fuel start).2 = true
          | none =>
            (ght_attribute_get_by_dimension h d out fuel start).1 = h
            ∧ (ght_attribute_get_by_dimension h d out fuel start).2
                = false) := by
  intro rep
  induction rep with
  | nil =>
    intro h start fuel hr hf _
    cases start with
    | none =>
      cases fuel with
      | zero => exact absurd hf (by omega)
      | succ f =>
        rw [ght_attribute_get_by_dimension]
        exact ⟨fun q _ => rfl, hr, by rw [List.map_nil, List.find?]; exact ⟨rfl, rfl⟩⟩
    | some p => rw [repChain] at hr; exact absurd hr (by simp)
  | cons qc rest ih =>
    intro h start fuel hr hf hout
    obtain ⟨q, c⟩ := qc
    cases start with
    | none => rw [repChain] at hr; exact absurd hr (by simp)
    | some p =>
      rw [repChain] at hr
      obtain ⟨hq, hc, hrest⟩ := hr
      cases fuel with
      | zero => exact absurd hf (by omega)
      | succ f =>
        rw [ght_attribute_get_by_dimension]
        rw [List.length_cons] at hf
        have hqout : q ≠ out := hout (q, c) (List.mem_cons_self _ _)
        subst hq
        rw [List.map_cons, List.find?]
        cases hdim : (c.dim == d) with
        | true =>
          have hdeq : c.dim = d := beq_iff_eq.mp hdim
          simp only [hc, if_pos hdeq]
          refine ⟨fun q2 hq2 => writeCell_other h out q2 c hq2, ?_, ?_⟩
          · refine repChain_of_agree ((q, c) :: rest) h (writeCell h out c)
              (some q) ?_ ?_
            · rw [repChain]
              exact ⟨rfl, hc, hrest⟩
            · intro x hx
              exact writeCell_other h out x.1 c (hout x hx)
          · exact ⟨writeCell_at h out c, trivial⟩
        | false =>
          have hdne : ¬ c.dim = d := by
            intro hcon
            rw [hcon] at hdim
            simp at hdim
          simp only [hc, if_neg hdne]
          have hihr := ih h c.next f hrest (by omega)
            (fun x hx => hout x (List.mem_cons_of_mem _ hx))
          obtain ⟨g1, g2, g3⟩ := hihr
          refine ⟨g1, ?_, g3⟩
          rw [repChain]
          exact ⟨rfl, (g1 q hqout).trans hc, g2⟩

/-- **C10**: `ght_attribute_get_by_dimension` leaves every cell of the input
attribute chain byte-identical and the chain intact, and when a cell of the
requested dimension exists it copies that cell's contents into the
caller-supplied cell instead of handing out a pointer into the chain. -/
theorem C10_get_by_dimension (h : AttrHeap) (d out : Nat)
    (rep : List (Nat × AttrCell)) (start : Option Nat) (fuel : Nat)
    (hrep : repChain h start rep) (hfuel : rep.length < fuel)
    (hout : ∀ qc ∈ rep, qc.1 ≠ out) :
    (∀ q ∈ rep.map Prod.fst,
      (ght_attribute_get_by_dimension h d out fuel start).1 q = h q)
    ∧ repChain (ght_attribute_get_by_dimension h d out fuel start).1
        start rep
    ∧ (∀ c : AttrCell,
        (rep.map Prod.snd).find? (fun c2 => c2.dim == d) = some c →
        (ght_attribute_get_by_dimension h d out fuel start).1 out = some c
        ∧ (ght_attribute_get_by_dimension h d out fuel start).2 = true) := by
  obtain ⟨g1, g2, g3⟩ :=
    get_by_dimension_spec d out rep h start fuel hrep hfuel hout
  refine ⟨?_, g2, ?_⟩
  · intro q hq
    rcases List.mem_map.mp hq with ⟨qc, hqc, rfl⟩
    exact g1 qc.1 (hout qc hqc)
  · intro c hfind
    simp only [hfind] at g3
    exact g3

theorem C10_get_by_dimension_witness :
    repChain (fun q => if q = 0 then some (AttrCell.mk 2 none 7) else none)
        (some 0) [(0, AttrCell.mk 2 none 7)]
    ∧ [((0:Nat), AttrCell.mk 2 none 7)].length < 2
    ∧ (∀ qc ∈ [((0:Nat), AttrCell.mk 2 none 7)], qc.1 ≠ 5)
    ∧ ((∀ q ∈ [((0:Nat), AttrCell.mk 2 none 7)].map Prod.fst,
        (ght_attribute_get_by_dimension
            (fun q => if q = 0 then some (AttrCell.mk 2 none 7) else none)
            2 5 2 (some 0)).1 q
          = (fun q => if q = 0 then some (AttrCell.mk 2 none 7) else none) q)
      ∧ repChain (ght_attribute_get_by_dimension
            (fun q => if q = 0 then some (AttrCell.mk 2 none 7) else none)
            2 5 2 (some 0)).1 (some 0) [(0, AttrCell.mk 2 none 7)]
      ∧ (∀ c : AttrCell,
          ([(0, AttrCell.mk 2 none 7)].map Prod.snd).find?
              (fun c2 => c2.dim == 2) = some c →
          (ght_attribute_get_by_dimension
              (fun q => if q = 0 then some (AttrCell.mk 2 none 7) else none)
              2 5 2 (some 0)).1 5 = some c
          ∧ (ght_attribute_get_by_dimension
              (fun q => if q = 0 then some (AttrCell.mk 2 none 7) else none)
              2 5 2 (some 0)).2 = true)) :=
  ⟨by rw [repChain]; exact ⟨rfl, by simp, by rw [repChain]; trivial⟩,
    by norm_num,
    by decide,
    C10_get_by_dimension
      (fun q => if q = 0 then some (AttrCell.mk 2 none 7) else none)
      2 5 [(0, AttrCell.mk 2 none 7)] (some 0) 2
      (by rw [repChain]; exact ⟨rfl, by simp, by rw [repChain]; trivial⟩)
      (by norm_num)
      (by decide)⟩

end LibGHT
